import Mathlib

/-!
Shallow embedding of the schemer migration-orchestration core
(src/schemer/src/lib.rs): migration descriptors, the dependency DAG held by
the Migrator (modeled, per the spec's design note, as a node arena plus a
directed edge list, which is exactly the adjacency structure daggy's Dag
wraps), the id map, and the operations register, register_multiple, up and
down.  The storage adapter is modeled as an in-memory applied-id set, as
the claims require.  Functions of the external daggy/petgraph crates
(cycle-checked edge insertion, toposort, externals, neighbors) are modeled
by their documented contracts.  Divergence or a Rust panic is modeled by
an outer Option returning none.
-/

namespace Schemer

/-- Migration identifiers (Uuid in the source); only value identity is
used by the core, so they are modeled as naturals. -/
abbrev Uuid := Nat

/-- Payload of the Migration trait: id, direct dependencies, description.
The source's dependencies() returns a HashSet; the list models one
iteration order of that set. -/
structure Migration where
  id : Uuid
  dependencies : List Uuid
  description : String
deriving DecidableEq

instance : Inhabited Migration := ⟨⟨0, [], ""⟩⟩

/-- State of Migrator minus the adapter handle: the daggy Dag (node arena
plus edge list; edge (a, b) makes node a a dependency of node b) and the
id_map from Uuid to node index, an association list kept in insertion
order (HashMap iteration order is unspecified in Rust; insertion order is
one realization). -/
structure Migrator where
  nodes : List Migration
  edges : List (Nat × Nat)
  idMap : List (Uuid × Nat)
deriving DecidableEq

def Migrator.empty : Migrator := ⟨[], [], []⟩

/-- id_map.get(&u). -/
def lookupId (m : List (Uuid × Nat)) (u : Uuid) : Option Nat :=
  (m.find? (fun p => decide (p.1 = u))).map Prod.snd

/-- DependencyError from the source. -/
inductive DependencyError
  | duplicateId (id : Uuid)
  | unknownId (id : Uuid)
  | cycle (depId : Uuid) (migId : Uuid)
deriving DecidableEq

deriving instance DecidableEq for Except

/-- MigrationDirection from the source. -/
inductive MigrationDirection
  | up
  | down
deriving DecidableEq

/-- MigratorError from the source, over the adapter error type E. -/
inductive MigratorError (E : Type)
  | dependency (e : DependencyError)
  | adapter (e : E)
  | migration (id : Uuid) (description : String) (direction : MigrationDirection) (error : E)
deriving DecidableEq

/-- petgraph EdgeDirection. -/
inductive Dir
  | incoming
  | outgoing
deriving DecidableEq

def Dir.opposite : Dir → Dir
  | .incoming => .outgoing
  | .outgoing => .incoming

/-- petgraph neighbors_directed: for incoming, the sources of edges into
i (its dependencies); for outgoing, the targets of edges out of i. -/
def nbrs (st : Migrator) (dir : Dir) (i : Nat) : List Nat :=
  match dir with
  | .incoming => (st.edges.filter (fun e => decide (e.2 = i))).map Prod.fst
  | .outgoing => (st.edges.filter (fun e => decide (e.1 = i))).map Prod.snd

/-- petgraph externals(dir): nodes with no edges in the given direction
(sinks for outgoing, sources for incoming). -/
def externals (st : Migrator) (dir : Dir) : List Nat :=
  (List.range st.nodes.length).filter (fun i => (nbrs st dir i).isEmpty)

/-- One expansion step of forward reachability along edges. -/
def stepOnce (st : Migrator) (s : Finset Nat) : Finset Nat :=
  s ∪ ((st.edges.filter (fun e => decide (e.1 ∈ s))).map Prod.snd).toFinset

/-- Forward-reachable node set from a, by saturating the step function
(enough iterations to reach the fixpoint on any graph whose edges stay
inside the node arena). -/
def reachSet (st : Migrator) (a : Nat) : Finset Nat :=
  (stepOnce st)^[st.nodes.length + 1] {a}

/-- Models petgraph has_path_connecting(a, b) used by daggy: is there a
(possibly empty) directed path from a to b. -/
def reachesB (st : Migrator) (a b : Nat) : Bool :=
  decide (b ∈ reachSet st a)

/-- Models the cycle check of daggy Dag::add_edge(a, b): the new edge
closes a cycle exactly when b already reaches a. -/
def wouldCycle (st : Migrator) (a b : Nat) : Bool :=
  reachesB st b a

/-- The dependency-edge loop of Migrator::register (and the inner loop of
register_multiple): for each dependency id, look it up (UnknownId on
failure) and insert the edge parent -> idx unless it would close a cycle
(Cycle on failure).  The state is returned in every case because the Rust
code mutates self in place and does not roll back on error. -/
def addDepEdges (mid : Uuid) (idx : Nat) : Migrator → List Uuid → Except DependencyError Unit × Migrator
  | st, [] => (.ok (), st)
  | st, d :: ds =>
    match lookupId st.idMap d with
    | none => (.error (.unknownId d), st)
    | some p =>
      if wouldCycle st p idx then (.error (.cycle d mid), st)
      else addDepEdges mid idx { st with edges := st.edges ++ [(p, idx)] } ds

/-- Migrator::register: reject a duplicate id, add the node, link its
dependency edges, and only then record the id in the id map. -/
def register (st : Migrator) (m : Migration) : Except DependencyError Unit × Migrator :=
  if (lookupId st.idMap m.id).isSome then (.error (.duplicateId m.id), st)
  else
    let idx := st.nodes.length
    let st1 : Migrator := { st with nodes := st.nodes ++ [m] }
    match addDepEdges m.id idx st1 m.dependencies with
    | (.error e, st2) => (.error e, st2)
    | (.ok _, st2) => (.ok (), { st2 with idMap := st2.idMap ++ [(m.id, idx)] })

/-- First loop of Migrator::register_multiple: add every node and its id
map entry, rejecting duplicates. -/
def addNodes : Migrator → List Migration → Except DependencyError Unit × Migrator
  | st, [] => (.ok (), st)
  | st, m :: ms =>
    if (lookupId st.idMap m.id).isSome then (.error (.duplicateId m.id), st)
    else
      addNodes
        { st with nodes := st.nodes ++ [m], idMap := st.idMap ++ [(m.id, st.nodes.length)] } ms

/-- Second loop of Migrator::register_multiple: for every id map entry
(the whole map, prior registrations included), link the dependency edges
of its node. -/
def linkAll : List (Uuid × Nat) → Migrator → Except DependencyError Unit × Migrator
  | [], st => (.ok (), st)
  | (u, idx) :: rest, st =>
    match addDepEdges u idx st (st.nodes.getD idx default).dependencies with
    | (.error e, st2) => (.error e, st2)
    | (.ok _, st2) => linkAll rest st2

/-- Migrator::register_multiple. -/
def registerMultiple (st : Migrator) (ms : List Migration) : Except DependencyError Unit × Migrator :=
  match addNodes st ms with
  | (.error e, st2) => (.error e, st2)
  | (.ok _, st2) => linkAll st2.idMap st2

/-- The worklist loop of Migrator::induced_stream: pop a node index, insert
its id, push its neighbors in the walk direction.  The source deduplicates
neither the queue nor visits, so termination relies on acyclicity; the
fuel models that, with none for divergence.  An out-of-range index (an
impossibility the source would surface as an indexing panic) also gives
none. -/
def bfsAux (st : Migrator) (dir : Dir) : Nat → List Nat → Finset Uuid → Option (Finset Uuid)
  | _, [], acc => some acc
  | 0, _ :: _, _ => none
  | fuel + 1, idx :: rest, acc =>
    match st.nodes[idx]? with
    | none => none
    | some m => bfsAux st dir fuel (rest ++ nbrs st dir idx) (insert m.id acc)

/-- Fuel sufficient for the worklist loop on any acyclic well-indexed
graph (proved below). -/
def bfsFuel (st : Migrator) : Nat :=
  (st.edges.length + 1) ^ (st.nodes.length + 1) * (st.nodes.length + 1) + 1

/-- A concrete iteration order for a set of ids (Rust HashSet iteration
order is unspecified; ascending order is one realization). -/
def sortedIds (s : Finset Uuid) : List Uuid :=
  Quotient.lift (fun l => List.insertionSort (fun x y => x ≤ y) l)
    (fun l1 l2 h =>
      List.eq_of_perm_of_sorted
        (((List.perm_insertionSort _ l1).trans h).trans
          (List.perm_insertionSort _ l2).symm)
        (List.sorted_insertionSort _ l1) (List.sorted_insertionSort _ l2))
    s.val

/-- Extensional decidable equality for id sets, reducible inside the
kernel: both inclusion checks iterate over the kernel-computable sorted
element lists. -/
instance (priority := 2000) : DecidableEq (Finset Nat) := fun s t =>
  decidable_of_iff
    ((((sortedIds s).all fun x => decide (x ∈ t)) = true) ∧
      ((sortedIds t).all fun x => decide (x ∈ s)) = true)
    (by
      have hmem : ∀ (u : Finset Nat) (x : Nat), x ∈ sortedIds u ↔ x ∈ u := by
        intro u x
        unfold sortedIds
        obtain ⟨val, nodup⟩ := u
        induction val using Quotient.inductionOn with
        | h l =>
          show x ∈ List.insertionSort (fun a b => a ≤ b) l ↔ _
          rw [(List.perm_insertionSort _ l).mem_iff]
          rfl
      constructor
      · rintro ⟨h1, h2⟩
        rw [List.all_eq_true] at h1 h2
        refine Finset.Subset.antisymm (fun x hx => ?_) (fun x hx => ?_)
        · exact of_decide_eq_true (h1 x ((hmem s x).mpr hx))
        · exact of_decide_eq_true (h2 x ((hmem t x).mpr hx))
      · rintro rfl
        refine ⟨?_, ?_⟩ <;>
          · rw [List.all_eq_true]
            intro x hx
            exact decide_eq_true ((hmem s x).mp hx))

/-- Maps each target id through the id map, as the eager collect of
Migrator::induced_stream does; none models the expect panic
(ID map is malformed) on any missing entry. -/
def lookupAll (st : Migrator) : List Uuid → Option (List Nat)
  | [] => some []
  | u :: us =>
    match lookupId st.idMap u, lookupAll st us with
    | some i, some is => some (i :: is)
    | _, _ => none

/-- Seed target set of Migrator::induced_stream: the given id if known
(UnknownId otherwise), or the ids of the externals opposite to the walk
direction when no id is given. -/
def targetStart (st : Migrator) (to? : Option Uuid) (dir : Dir) : Except DependencyError (Finset Uuid) :=
  match to? with
  | some u => if (lookupId st.idMap u).isSome then .ok {u} else .error (.unknownId u)
  | none => .ok ((externals st dir.opposite).map (fun i => (st.nodes.getD i default).id)).toFinset

/-- Migrator::induced_stream: seed the target ids, map them through the
id map (the expect that panics when the id map is malformed), then run the
worklist loop.  Iterating a Rust HashSet has unspecified order; ascending
order is one realization. -/
def inducedStream (st : Migrator) (to? : Option Uuid) (dir : Dir) :
    Option (Except DependencyError (Finset Uuid)) :=
  match targetStart st to? dir with
  | .error e => some (.error e)
  | .ok targets =>
    match lookupAll st (sortedIds targets) with
    | none => none
    | some queue =>
      match bfsAux st dir (bfsFuel st) queue targets with
      | none => none
      | some res => some (.ok res)

/-- Checks by noIncomingFrom whether node i has no dependency edge from a
node still unprocessed: the pick condition of a topological sort. -/
def noIncomingFrom (st : Migrator) (remaining : List Nat) (i : Nat) : Bool :=
  st.edges.all (fun e => !(decide (e.2 = i) && remaining.contains e.1))

/-- Kahn-style topological sort loop: repeatedly pick the first remaining
node with no incoming edge from the remaining set. -/
def kahnAux (st : Migrator) : Nat → List Nat → List Nat → Option (List Nat)
  | _, [], acc => some acc.reverse
  | 0, _ :: _, _ => none
  | fuel + 1, r :: rs, acc =>
    match (r :: rs).find? (noIncomingFrom st (r :: rs)) with
    | none => none
    | some i => kahnAux st fuel ((r :: rs).erase i) (i :: acc)

/-- Models the external petgraph toposort by its contract (spec 4.1): a
deterministic total order of all nodes consistent with every edge, failing
only on a cyclic graph. -/
def toposort (st : Migrator) : Option (List Nat) :=
  kahnAux st st.nodes.length (List.range st.nodes.length) []

/-- In-memory storage adapter over error type E, as the claims model it:
the applied-id set, plus per-id outcomes of the apply and revert actions
(none = success).  A successful apply inserts the id and a successful
revert removes it, atomically; a failing action leaves the set unchanged. -/
structure MemAdapter (E : Type) where
  applied : Finset Uuid
  applyFail : Uuid → Option E
  revertFail : Uuid → Option E

/-- The always-succeeding in-memory adapter over a given applied set. -/
def alwaysOk (applied : Finset Uuid) : MemAdapter Unit :=
  ⟨applied, fun _ => none, fun _ => none⟩

/-- The walk loop of Migrator::up over the toposorted node indices:
skip nodes already in the applied snapshot or outside the target set,
apply the rest in order, stopping at the first adapter failure with a
Migration error attributing id, description and direction.  The third
component instruments the adapter: the ids, in order, for which an apply
action was invoked. -/
def upWalk {E : Type} (st : Migrator) (targets applied0 : Finset Uuid) :
    MemAdapter E → List Nat → Except (MigratorError E) Unit × MemAdapter E × List Uuid
  | ad, [] => (.ok (), ad, [])
  | ad, idx :: rest =>
    let m := st.nodes.getD idx default
    if m.id ∈ applied0 ∨ m.id ∉ targets then upWalk st targets applied0 ad rest
    else
      match ad.applyFail m.id with
      | some e => (.error (.migration m.id m.description .up e), ad, [m.id])
      | none =>
        let r := upWalk st targets applied0 { ad with applied := insert m.id ad.applied } rest
        (r.1, r.2.1, m.id :: r.2.2)

/-- Migrator::up: compute the target ids via induced_stream over incoming
edges, snapshot the applied set, then walk the full topological order
forward.  none models a panic or divergence inside the call. -/
def up {E : Type} (st : Migrator) (ad : MemAdapter E) (to? : Option Uuid) :
    Option (Except (MigratorError E) Unit × MemAdapter E × List Uuid) :=
  match inducedStream st to? .incoming with
  | none => none
  | some (.error e) => some (.error (.dependency e), ad, [])
  | some (.ok targets) =>
    match toposort st with
    | none => none
    | some ts => some (upWalk st targets ad.applied ad ts)

/-- The walk loop of Migrator::down, over the reversed topological order:
skip nodes not in the applied snapshot or outside the target set, revert
the rest, stopping at the first adapter failure. -/
def downWalk {E : Type} (st : Migrator) (targets applied0 : Finset Uuid) :
    MemAdapter E → List Nat → Except (MigratorError E) Unit × MemAdapter E × List Uuid
  | ad, [] => (.ok (), ad, [])
  | ad, idx :: rest =>
    let m := st.nodes.getD idx default
    if m.id ∉ applied0 ∨ m.id ∉ targets then downWalk st targets applied0 ad rest
    else
      match ad.revertFail m.id with
      | some e => (.error (.migration m.id m.description .down e), ad, [m.id])
      | none =>
        let r := downWalk st targets applied0 { ad with applied := ad.applied.erase m.id } rest
        (r.1, r.2.1, m.id :: r.2.2)

/-- The boundary removal of Migrator::down: when a target id was given,
remove it from the computed target set (it stays applied). -/
def dTargets : Option Uuid → Finset Uuid → Finset Uuid
  | some u, T0 => T0.erase u
  | none, T0 => T0

/-- Migrator::down: compute the target ids via induced_stream over
outgoing edges, drop the boundary id itself when a target id was given,
snapshot the applied set, then walk the topological order in reverse. -/
def down {E : Type} (st : Migrator) (ad : MemAdapter E) (to? : Option Uuid) :
    Option (Except (MigratorError E) Unit × MemAdapter E × List Uuid) :=
  match inducedStream st to? .outgoing with
  | none => none
  | some (.error e) => some (.error (.dependency e), ad, [])
  | some (.ok targets0) =>
    let targets := dTargets to? targets0
    match toposort st with
    | none => none
    | some ts => some (downWalk st targets ad.applied ad ts.reverse)

/-- An up or down call with its target argument. -/
inductive Op
  | up (to? : Option Uuid)
  | down (to? : Option Uuid)

/-- Run a sequence of up/down calls with the always-succeeding in-memory
adapter, threading the applied set; some only when every call returned Ok
without a panic. -/
def runOps (st : Migrator) : Finset Uuid → List Op → Option (Finset Uuid)
  | applied, [] => some applied
  | applied, op :: rest =>
    let r? := match op with
      | .up t => up st (alwaysOk applied) t
      | .down t => down st (alwaysOk applied) t
    match r? with
    | some (.ok _, ad, _) => runOps st ad.applied rest
    | _ => none

/-- The id of the node at index i. -/
def idOf (st : Migrator) (i : Nat) : Uuid :=
  (st.nodes.getD i default).id

/-- The dependency-edge relation on node indices: a is a direct
dependency of b. -/
def Step (st : Migrator) (a b : Nat) : Prop :=
  (a, b) ∈ st.edges

/-- The neighbor relation in a walk direction. -/
def StepD (st : Migrator) (dir : Dir) (i j : Nat) : Prop :=
  j ∈ nbrs st dir i

/-- Directed reachability in a walk direction (reflexive-transitive). -/
def Reach (st : Migrator) (dir : Dir) : Nat → Nat → Prop :=
  Relation.ReflTransGen (StepD st dir)

/-- The dependency graph has no directed cycle. -/
def Acyclic (st : Migrator) : Prop :=
  ∀ i, ¬ Relation.TransGen (Step st) i i

/-- Every edge endpoint is a node of the arena. -/
def EdgesValid (st : Migrator) : Prop :=
  ∀ e ∈ st.edges, e.1 < st.nodes.length ∧ e.2 < st.nodes.length

/-- Every id map entry points below the node count. -/
def IdMapBounded (st : Migrator) : Prop :=
  ∀ p ∈ st.idMap, p.2 < st.nodes.length

/-- Every id map entry points at a node of the arena carrying that id. -/
def IdMapValid (st : Migrator) : Prop :=
  ∀ p ∈ st.idMap, p.2 < st.nodes.length ∧ (st.nodes.getD p.2 default).id = p.1

/-- Every node is reachable through the id map under its own id. -/
def IdsIndexed (st : Migrator) : Prop :=
  ∀ i < st.nodes.length, lookupId st.idMap (st.nodes.getD i default).id = some i

instance (st : Migrator) : Decidable (EdgesValid st) :=
  inferInstanceAs (Decidable (∀ e ∈ st.edges, e.1 < st.nodes.length ∧ e.2 < st.nodes.length))

instance (st : Migrator) : Decidable (IdMapBounded st) :=
  inferInstanceAs (Decidable (∀ p ∈ st.idMap, p.2 < st.nodes.length))

instance (st : Migrator) : Decidable (IdMapValid st) :=
  inferInstanceAs
    (Decidable (∀ p ∈ st.idMap, p.2 < st.nodes.length ∧ (st.nodes.getD p.2 default).id = p.1))

instance (st : Migrator) : Decidable (IdsIndexed st) :=
  inferInstanceAs
    (Decidable (∀ i < st.nodes.length, lookupId st.idMap (st.nodes.getD i default).id = some i))

/-- A well-formed migrator state: what holds of the graph after any
sequence of successful registrations. -/
structure WF (st : Migrator) : Prop where
  edges_valid : EdgesValid st
  idmap_valid : IdMapValid st
  ids_indexed : IdsIndexed st
  acyclic : Acyclic st

/-- ancestors(x): the ids of x and of everything x transitively depends
on (reachability along incoming edges). -/
def ancestorIds (st : Migrator) (x : Nat) : Set Uuid :=
  { u | ∃ j, Reach st .incoming x j ∧ u = idOf st j }

/-- descendants(x): the ids of x and of everything transitively depending
on x (reachability along outgoing edges). -/
def descendantIds (st : Migrator) (x : Nat) : Set Uuid :=
  { u | ∃ j, Reach st .outgoing x j ∧ u = idOf st j }

/-- The subsequence of the topological walk that up acts on: descriptors
in walk order that are in the target set and not in the applied
snapshot. -/
def upPlan (st : Migrator) (targets applied0 : Finset Uuid) (ts : List Nat) : List Migration :=
  (ts.map (fun i => st.nodes.getD i default)).filter
    (fun m => decide (m.id ∉ applied0 ∧ m.id ∈ targets))

/-- The subsequence of the reversed topological walk that down acts on:
descriptors in walk order that are in the target set and in the applied
snapshot. -/
def downPlan (st : Migrator) (targets applied0 : Finset Uuid) (ts : List Nat) : List Migration :=
  (ts.map (fun i => st.nodes.getD i default)).filter
    (fun m => decide (m.id ∈ applied0 ∧ m.id ∈ targets))

/-- States reachable from st by register / register_multiple calls,
successful or failed. -/
inductive RegReach : Migrator → Migrator → Prop
  | refl (st : Migrator) : RegReach st st
  | reg (st st' : Migrator) (m : Migration) :
      RegReach st st' → RegReach st (register st' m).2
  | regMult (st st' : Migrator) (ms : List Migration) :
      RegReach st st' → RegReach st (registerMultiple st' ms).2

/-- Weight of a worklist queue under a rank function, the termination
measure of the worklist loop. -/
def qMeasure (B : Nat) (rkD : Nat → Nat) (q : List Nat) : Nat :=
  (q.map (fun i => B ^ (rkD i + 1))).sum

/-- Executable acyclicity check used to discharge WF on concrete states:
no edge whose target already reaches its source. -/
def acyclicB (st : Migrator) : Bool :=
  st.edges.all (fun e => ! reachesB st e.2 e.1)

/-! Basic facts about the id map lookup. -/

/-! Concrete states used in the concrete checks below: a two-migration
chain (the second depends on the first), built by two successful register
calls from the empty state, plus small variants. -/

def exM1 : Migration := ⟨1, [], "m1"⟩

def exM2 : Migration := ⟨2, [1], "m2"⟩

def exChain : Migrator := ⟨[exM1, exM2], [(0, 1)], [(1, 0), (2, 1)]⟩

def exOne : Migrator := ⟨[exM1], [], [(1, 0)]⟩

def exBadM : Migration := ⟨2, [1, 99], "b"⟩

def exOneBad : Migrator := ⟨[exM1, exBadM], [(0, 1)], [(1, 0)]⟩

def exOrphanM : Migration := ⟨1, [99], "a"⟩

def exOrphan : Migrator := ⟨[exOrphanM], [], []⟩

def exSelf : Migration := ⟨3, [1, 3], "s"⟩

/-- Adapter whose apply action fails exactly on id 2. -/
def exFailUpAd : MemAdapter Unit :=
  ⟨∅, fun u => if u = 2 then some () else none, fun _ => none⟩

/-- Adapter with ids 1 and 2 applied whose revert action fails exactly on
id 1. -/
def exFailDownAd : MemAdapter Unit :=
  ⟨{1, 2}, fun _ => none, fun u => if u = 1 then some () else none⟩

theorem mem_sortedIds {s : Finset Uuid} {x : Uuid} : x ∈ sortedIds s ↔ x ∈ s := by
  unfold sortedIds
  obtain ⟨val, nodup⟩ := s
  induction val using Quotient.inductionOn with
  | h l =>
    show x ∈ List.insertionSort (fun a b => a ≤ b) l ↔ _
    rw [(List.perm_insertionSort _ l).mem_iff]
    rfl

theorem length_sortedIds {s : Finset Uuid} : (sortedIds s).length = s.card := by
  unfold sortedIds
  obtain ⟨val, nodup⟩ := s
  induction val using Quotient.inductionOn with
  | h l =>
    show (List.insertionSort (fun a b => a ≤ b) l).length = _
    rw [(List.perm_insertionSort _ l).length_eq]
    rfl

theorem sortedIds_singleton (u : Uuid) : sortedIds {u} = [u] := rfl

theorem lookupId_isSome_iff {m : List (Uuid × Nat)} {u : Uuid} :
    (lookupId m u).isSome ↔ ∃ p ∈ m, p.1 = u := by
  unfold lookupId
  rw [Option.isSome_map', List.find?_isSome]
  simp

theorem lookupId_mem {m : List (Uuid × Nat)} {u : Uuid} {i : Nat}
    (h : lookupId m u = some i) : (u, i) ∈ m := by
  unfold lookupId at h
  rcases Option.map_eq_some'.1 h with ⟨p, hp, hsnd⟩
  have hmem := List.mem_of_find?_eq_some hp
  have hfst := List.find?_some hp
  rcases p with ⟨u', i'⟩
  simp only [decide_eq_true_eq] at hfst
  subst hfst
  simp only at hsnd
  subst hsnd
  exact hmem

theorem lookupId_append {m1 m2 : List (Uuid × Nat)} {u : Uuid} :
    lookupId (m1 ++ m2) u =
      match lookupId m1 u with
      | some i => some i
      | none => lookupId m2 u := by
  unfold lookupId
  rw [List.find?_append]
  cases h : m1.find? (fun p => decide (p.1 = u)) <;> simp [Option.orElse]

/-! Neighbor relations and edges. -/

theorem mem_nbrs_incoming {st : Migrator} {i j : Nat} :
    j ∈ nbrs st .incoming i ↔ (j, i) ∈ st.edges := by
  unfold nbrs
  simp only [List.mem_map, List.mem_filter, decide_eq_true_eq]
  constructor
  · rintro ⟨⟨a, b⟩, ⟨hmem, hb⟩, hfst⟩
    simp only at hb hfst
    subst hb; subst hfst; exact hmem
  · intro h
    exact ⟨(j, i), ⟨h, rfl⟩, rfl⟩

theorem mem_nbrs_outgoing {st : Migrator} {i j : Nat} :
    j ∈ nbrs st .outgoing i ↔ (i, j) ∈ st.edges := by
  unfold nbrs
  simp only [List.mem_map, List.mem_filter, decide_eq_true_eq]
  constructor
  · rintro ⟨⟨a, b⟩, ⟨hmem, ha⟩, hsnd⟩
    simp only at ha hsnd
    subst ha; subst hsnd; exact hmem
  · intro h
    exact ⟨(i, j), ⟨h, rfl⟩, rfl⟩

theorem stepD_outgoing_iff {st : Migrator} {i j : Nat} :
    StepD st .outgoing i j ↔ Step st i j := by
  unfold StepD Step
  exact mem_nbrs_outgoing

theorem stepD_incoming_iff {st : Migrator} {i j : Nat} :
    StepD st .incoming i j ↔ Step st j i := by
  unfold StepD Step
  exact mem_nbrs_incoming

theorem nbrs_valid {st : Migrator} (hE : EdgesValid st) {dir : Dir} {i j : Nat}
    (h : j ∈ nbrs st dir i) : j < st.nodes.length := by
  cases dir
  · exact (hE _ (mem_nbrs_incoming.1 h)).1
  · exact (hE _ (mem_nbrs_outgoing.1 h)).2

theorem reach_valid {st : Migrator} (hE : EdgesValid st) {dir : Dir} {i j : Nat}
    (hi : i < st.nodes.length) (h : Reach st dir i j) : j < st.nodes.length := by
  induction h with
  | refl => exact hi
  | tail _ hstep ih => exact nbrs_valid hE hstep

/-! The saturation computation reachSet agrees with reflexive-transitive
closure of the edge relation. -/

theorem stepOnce_subset (st : Migrator) (s : Finset Nat) : s ⊆ stepOnce st s :=
  Finset.subset_union_left

theorem mem_stepOnce_iff {st : Migrator} {s : Finset Nat} {x : Nat} :
    x ∈ stepOnce st s ↔ x ∈ s ∨ ∃ e ∈ st.edges, e.1 ∈ s ∧ e.2 = x := by
  unfold stepOnce
  simp only [Finset.mem_union, List.mem_toFinset, List.mem_map, List.mem_filter,
    decide_eq_true_eq]
  constructor
  · rintro (h | ⟨e, ⟨hmem, hfst⟩, hsnd⟩)
    · exact Or.inl h
    · exact Or.inr ⟨e, hmem, hfst, hsnd⟩
  · rintro (h | ⟨e, hmem, hfst, hsnd⟩)
    · exact Or.inl h
    · exact Or.inr ⟨e, ⟨hmem, hfst⟩, hsnd⟩

theorem rtg_of_mem_iter {st : Migrator} {a x : Nat} :
    ∀ {k : Nat}, x ∈ (stepOnce st)^[k] {a} → Relation.ReflTransGen (Step st) a x := by
  intro k
  induction k generalizing x with
  | zero =>
    intro h
    simp only [Function.iterate_zero, id_eq, Finset.mem_singleton] at h
    subst h
    exact Relation.ReflTransGen.refl
  | succ k ih =>
    intro h
    rw [Function.iterate_succ_apply'] at h
    rcases mem_stepOnce_iff.1 h with h' | ⟨e, hmem, hfst, hsnd⟩
    · exact ih h'
    · subst hsnd
      exact (ih hfst).tail hmem

theorem rtg_of_reachesB {st : Migrator} {a b : Nat} (h : reachesB st a b = true) :
    Relation.ReflTransGen (Step st) a b := by
  unfold reachesB reachSet at h
  exact rtg_of_mem_iter (of_decide_eq_true h)

theorem iter_subset_insert_range {st : Migrator} (hE : EdgesValid st) (a : Nat) :
    ∀ k, (stepOnce st)^[k] {a} ⊆ insert a (Finset.range st.nodes.length) := by
  intro k
  induction k with
  | zero => simp
  | succ k ih =>
    rw [Function.iterate_succ_apply']
    intro x hx
    rcases mem_stepOnce_iff.1 hx with h | ⟨e, hmem, _, hsnd⟩
    · exact ih h
    · subst hsnd
      exact Finset.mem_insert_of_mem (Finset.mem_range.2 (hE _ hmem).2)

theorem iter_mono {st : Migrator} (a : Nat) (k : Nat) :
    (stepOnce st)^[k] {a} ⊆ (stepOnce st)^[k + 1] {a} := by
  rw [Function.iterate_succ_apply']
  exact stepOnce_subset st _

theorem iter_mono_le {st : Migrator} (a : Nat) {k l : Nat} (h : k ≤ l) :
    (stepOnce st)^[k] {a} ⊆ (stepOnce st)^[l] {a} := by
  induction l with
  | zero =>
    have : k = 0 := Nat.le_zero.1 h
    subst this
    exact subset_rfl
  | succ l ih =>
    rcases Nat.lt_or_ge k (l + 1) with h' | h'
    · exact (ih (Nat.lt_succ_iff.1 h')).trans (iter_mono a l)
    · have : k = l + 1 := Nat.le_antisymm h h'
      subst this
      exact subset_rfl

theorem iter_card_chain {st : Migrator} (a : Nat) :
    ∀ k, (∀ j < k, (stepOnce st)^[j] {a} ≠ (stepOnce st)^[j + 1] {a}) →
      k + 1 ≤ ((stepOnce st)^[k] {a}).card := by
  intro k
  induction k with
  | zero =>
    intro _
    simp
  | succ k ih =>
    intro h
    have hne : (stepOnce st)^[k] {a} ≠ (stepOnce st)^[k + 1] {a} :=
      h k (Nat.lt_succ_self k)
    have hss : (stepOnce st)^[k] {a} ⊂ (stepOnce st)^[k + 1] {a} :=
      Finset.ssubset_iff_subset_ne.2 ⟨iter_mono a k, hne⟩
    have hcard := Finset.card_lt_card hss
    have hprev := ih (fun j hj => h j (Nat.lt_succ_of_lt hj))
    omega

theorem iter_stabilizes {st : Migrator} (hE : EdgesValid st) (a : Nat) :
    stepOnce st (reachSet st a) = reachSet st a := by
  have key : ∃ k < st.nodes.length + 1,
      (stepOnce st)^[k] {a} = (stepOnce st)^[k + 1] {a} := by
    by_contra hstep
    push_neg at hstep
    have hcard := @iter_card_chain st a (st.nodes.length + 1) hstep
    have hsub := iter_subset_insert_range hE a (st.nodes.length + 1)
    have hle : ((stepOnce st)^[st.nodes.length + 1] {a}).card ≤ st.nodes.length + 1 := by
      calc ((stepOnce st)^[st.nodes.length + 1] {a}).card
          ≤ (insert a (Finset.range st.nodes.length)).card := Finset.card_le_card hsub
        _ ≤ (Finset.range st.nodes.length).card + 1 := Finset.card_insert_le _ _
        _ = st.nodes.length + 1 := by rw [Finset.card_range]
    omega
  rcases key with ⟨k, hk, heq⟩
  have hstable : ∀ l, k ≤ l → (stepOnce st)^[l] {a} = (stepOnce st)^[k] {a} := by
    intro l
    induction l with
    | zero =>
      intro h0
      rw [Nat.le_zero.1 h0]
    | succ l ih =>
      intro hkl
      rcases Nat.lt_or_ge k (l + 1) with h' | h'
      · have hl := ih (Nat.lt_succ_iff.1 h')
        rw [Function.iterate_succ_apply', hl]
        exact ((Function.iterate_succ_apply' (stepOnce st) k {a}).symm.trans heq.symm)
      · rw [Nat.le_antisymm hkl h']
  have h1 : reachSet st a = (stepOnce st)^[k] {a} := hstable _ (Nat.le_of_lt hk)
  rw [h1]
  exact ((Function.iterate_succ_apply' (stepOnce st) k {a}).symm.trans heq.symm)

theorem mem_reachSet_of_rtg {st : Migrator} (hE : EdgesValid st) {a b : Nat}
    (h : Relation.ReflTransGen (Step st) a b) : b ∈ reachSet st a := by
  induction h with
  | refl =>
    unfold reachSet
    exact iter_mono_le a (Nat.zero_le _) (by simp)
  | tail hac hcb ih =>
    have : _ ∈ stepOnce st (reachSet st a) :=
      mem_stepOnce_iff.2 (Or.inr ⟨_, hcb, ih, rfl⟩)
    rwa [iter_stabilizes hE] at this

theorem mem_reachSet_iff {st : Migrator} (hE : EdgesValid st) {a b : Nat} :
    b ∈ reachSet st a ↔ Relation.ReflTransGen (Step st) a b := by
  constructor
  · intro h
    exact rtg_of_mem_iter h
  · exact mem_reachSet_of_rtg hE

theorem reachesB_iff {st : Migrator} (hE : EdgesValid st) {a b : Nat} :
    reachesB st a b = true ↔ Relation.ReflTransGen (Step st) a b := by
  unfold reachesB
  rw [decide_eq_true_eq]
  exact mem_reachSet_iff hE

theorem acyclic_of_acyclicB {st : Migrator} (hE : EdgesValid st)
    (h : acyclicB st = true) : Acyclic st := by
  intro i hi
  rcases Relation.TransGen.head'_iff.1 hi with ⟨c, hic, hci⟩
  unfold acyclicB at h
  rw [List.all_eq_true] at h
  have := h _ hic
  simp only [Bool.not_eq_true'] at this
  rw [← Bool.not_eq_true] at this
  exact this ((reachesB_iff hE).2 hci)

/-! In an acyclic graph, every nonempty node set has an element with no
incoming edge from the set (by chasing predecessors and pigeonholing). -/

theorem exists_minimal {st : Migrator} (hA : Acyclic st) {remaining : List Nat}
    (hne : remaining ≠ []) :
    ∃ m ∈ remaining, ∀ e ∈ st.edges, e.2 = m → e.1 ∉ remaining := by
  classical
  by_contra hcon
  push_neg at hcon
  have hpred : ∀ x ∈ remaining, ∃ y ∈ remaining, Step st y x := by
    intro x hx
    rcases hcon x hx with ⟨e, he, h2, h1⟩
    refine ⟨e.1, h1, ?_⟩
    unfold Step
    rwa [← h2, Prod.mk.eta]
  let σ := { x // x ∈ remaining.toFinset }
  have hmem : ∀ x : Nat, x ∈ remaining → x ∈ remaining.toFinset := by
    intro x hx
    rwa [List.mem_toFinset]
  let g : σ → σ := fun x =>
    ⟨(hpred x.1 (List.mem_toFinset.1 x.2)).choose,
      hmem _ (hpred x.1 (List.mem_toFinset.1 x.2)).choose_spec.1⟩
  have hgstep : ∀ x : σ, Step st (g x).1 x.1 := by
    intro x
    exact (hpred x.1 (List.mem_toFinset.1 x.2)).choose_spec.2
  have hhead : remaining.toFinset.Nonempty := by
    rcases List.exists_mem_of_ne_nil remaining hne with ⟨x, hx⟩
    exact ⟨x, hmem x hx⟩
  obtain ⟨x0, hx0⟩ := hhead
  let c : Nat → σ := fun k => g^[k] ⟨x0, hx0⟩
  have hcsucc : ∀ k, c (k + 1) = g (c k) := by
    intro k
    simp only [c, Function.iterate_succ_apply']
  have hchain : ∀ d k, Relation.TransGen (Step st) (c (k + d + 1)).1 (c k).1 := by
    intro d
    induction d with
    | zero =>
      intro k
      rw [hcsucc k]
      exact Relation.TransGen.single (hgstep (c k))
    | succ d ih =>
      intro k
      have hstep : Step st (c (k + d + 2)).1 (c (k + d + 1)).1 := by
        rw [show k + d + 2 = (k + d + 1) + 1 by omega, hcsucc]
        exact hgstep (c (k + d + 1))
      exact (Relation.TransGen.single hstep).trans (ih k)
  have hcardlt : Fintype.card σ < Fintype.card (Fin (remaining.length + 1)) := by
    rw [Fintype.card_fin, Fintype.card_coe]
    exact Nat.lt_succ_of_le remaining.toFinset_card_le
  obtain ⟨a, b, hab, heq⟩ :=
    Fintype.exists_ne_map_eq_of_card_lt (fun k : Fin (remaining.length + 1) => c k.1) hcardlt
  rcases Nat.lt_or_ge a.1 b.1 with hlt | hge
  · have := hchain (b.1 - a.1 - 1) a.1
    rw [show a.1 + (b.1 - a.1 - 1) + 1 = b.1 by omega, heq] at this
    exact hA _ this
  · have hlt' : b.1 < a.1 := by
      rcases Nat.lt_or_ge b.1 a.1 with h | h
      · exact h
      · exact absurd (Fin.val_injective (Nat.le_antisymm hge h)) (Ne.symm hab)
    have := hchain (a.1 - b.1 - 1) b.1
    rw [show b.1 + (a.1 - b.1 - 1) + 1 = a.1 by omega, ← heq] at this
    exact hA _ this

/-- An acyclic graph admits a rank function on any finite node set. -/
theorem exists_rank_on {st : Migrator} (hA : Acyclic st) (s : Finset Nat) :
    ∃ rk : Nat → Nat, ∀ e ∈ st.edges, e.1 ∈ s → e.2 ∈ s → rk e.1 < rk e.2 := by
  classical
  induction s using Finset.strongInduction with
  | _ s ih =>
    by_cases hs : s.Nonempty
    · have hne : s.toList ≠ [] := by
        rw [← Finset.toList_toFinset s] at hs
        intro h
        rw [h] at hs
        simp at hs
      obtain ⟨m, hm, hmin⟩ := exists_minimal hA hne
      have hms : m ∈ s := by rwa [Finset.mem_toList] at hm
      obtain ⟨rk', hrk'⟩ := ih (s.erase m) (Finset.erase_ssubset hms)
      refine ⟨fun x => if x = m then 0 else rk' x + 1, ?_⟩
      intro e he h1 h2
      have h2m : e.2 ≠ m := by
        intro h
        exact (hmin e he h) (Finset.mem_toList.2 h1)
      show (if e.1 = m then 0 else rk' e.1 + 1) < (if e.2 = m then 0 else rk' e.2 + 1)
      split_ifs with h1m
      · exact Nat.succ_pos _
      · have := hrk' e he (Finset.mem_erase.2 ⟨h1m, h1⟩) (Finset.mem_erase.2 ⟨h2m, h2⟩)
        omega
    · refine ⟨fun _ => 0, ?_⟩
      intro e he h1 _
      exact absurd ⟨e.1, h1⟩ hs

/-- A well-indexed acyclic graph admits a global rank function bounded by
the node count. -/
theorem exists_bounded_rank {st : Migrator} (hE : EdgesValid st) (hA : Acyclic st) :
    ∃ rk : Nat → Nat, (∀ e ∈ st.edges, rk e.1 < rk e.2) ∧
      ∀ i, rk i ≤ st.nodes.length := by
  obtain ⟨rk, hrk⟩ := exists_rank_on hA (Finset.range st.nodes.length)
  have hrk' : ∀ e ∈ st.edges, rk e.1 < rk e.2 := by
    intro e he
    exact hrk e he (Finset.mem_range.2 (hE e he).1) (Finset.mem_range.2 (hE e he).2)
  refine ⟨fun x => ((Finset.range st.nodes.length).filter (fun y => rk y < rk x)).card,
    ?_, ?_⟩
  · intro e he
    apply Finset.card_lt_card
    rw [Finset.ssubset_iff_of_subset]
    · refine ⟨e.1, Finset.mem_filter.2 ⟨Finset.mem_range.2 (hE e he).1, hrk' e he⟩, ?_⟩
      intro hmem
      exact absurd (Finset.mem_filter.1 hmem).2 (lt_irrefl _)
    · intro y hy
      rcases Finset.mem_filter.1 hy with ⟨hy1, hy2⟩
      exact Finset.mem_filter.2 ⟨hy1, hy2.trans (hrk' e he)⟩
  · intro i
    exact le_trans (Finset.card_filter_le _ _) (le_of_eq (Finset.card_range _))

/-! Kahn loop: output is a permutation of the remaining nodes, and the
loop succeeds on acyclic graphs. -/

theorem contains_iff_mem {l : List Nat} {x : Nat} : l.contains x = true ↔ x ∈ l :=
  List.elem_iff

theorem noIncomingFrom_iff {st : Migrator} {rem : List Nat} {i : Nat} :
    noIncomingFrom st rem i = true ↔ ∀ e ∈ st.edges, ¬(e.2 = i ∧ e.1 ∈ rem) := by
  unfold noIncomingFrom
  rw [List.all_eq_true]
  constructor
  · intro h e he
    have h' := h e he
    rw [Bool.not_eq_true', Bool.and_eq_false_iff] at h'
    rintro ⟨h2, h1⟩
    rcases h' with h' | h'
    · exact (decide_eq_false_iff_not.1 h') h2
    · exact Bool.false_ne_true (h'.symm.trans (contains_iff_mem.2 h1))
  · intro h e he
    have h' := h e he
    rw [Bool.not_eq_true', Bool.and_eq_false_iff]
    by_cases h2 : e.2 = i
    · right
      rw [← Bool.not_eq_true]
      intro hc
      exact h' ⟨h2, contains_iff_mem.1 hc⟩
    · left
      exact decide_eq_false h2

theorem kahnAux_perm {st : Migrator} :
    ∀ {fuel : Nat} {remaining acc out : List Nat},
      kahnAux st fuel remaining acc = some out → out.Perm (acc.reverse ++ remaining) := by
  intro fuel
  induction fuel with
  | zero =>
    intro remaining acc out h
    cases remaining with
    | nil =>
      simp only [kahnAux, Option.some.injEq] at h
      subst h
      simp
    | cons r rs => simp [kahnAux] at h
  | succ fuel ih =>
    intro remaining acc out h
    cases remaining with
    | nil =>
      simp only [kahnAux, Option.some.injEq] at h
      subst h
      simp
    | cons r rs =>
      cases hfind : (r :: rs).find? (noIncomingFrom st (r :: rs)) with
      | none => simp [kahnAux, hfind] at h
      | some i =>
        simp only [kahnAux, hfind] at h
        have hi : i ∈ r :: rs := List.mem_of_find?_eq_some hfind
        have hperm := ih h
        rw [List.reverse_cons] at hperm
        have hstep1 : List.Perm out (acc.reverse ++ ([i] ++ (r :: rs).erase i)) := by
          rw [← List.append_assoc]
          exact hperm
        have hstep2 : List.Perm ([i] ++ (r :: rs).erase i) (r :: rs) :=
          (List.perm_cons_erase hi).symm
        exact hstep1.trans (List.Perm.append_left _ hstep2)

theorem kahnAux_complete {st : Migrator} (hA : Acyclic st) :
    ∀ (fuel : Nat) (remaining acc : List Nat), remaining.length ≤ fuel →
      (kahnAux st fuel remaining acc).isSome := by
  intro fuel
  induction fuel with
  | zero =>
    intro remaining acc hlen
    have : remaining = [] := List.length_eq_zero.1 (Nat.le_zero.1 hlen)
    subst this
    simp [kahnAux]
  | succ fuel ih =>
    intro remaining acc hlen
    cases remaining with
    | nil => simp [kahnAux]
    | cons r rs =>
      obtain ⟨m, hm, hmin⟩ := exists_minimal hA (List.cons_ne_nil r rs)
      have hminB : noIncomingFrom st (r :: rs) m = true := by
        rw [noIncomingFrom_iff]
        intro e he
        rintro ⟨h2, h1⟩
        exact hmin e he h2 h1
      have hf : ((r :: rs).find? (noIncomingFrom st (r :: rs))).isSome :=
        List.find?_isSome.2 ⟨m, hm, hminB⟩
      obtain ⟨i, hi⟩ := Option.isSome_iff_exists.1 hf
      simp only [kahnAux, hi]
      apply ih
      have hilen := List.length_erase_of_mem (List.mem_of_find?_eq_some hi)
      rw [hilen]
      simp only [List.length_cons] at hlen ⊢
      omega

theorem toposort_isSome {st : Migrator} (hA : Acyclic st) : (toposort st).isSome :=
  kahnAux_complete hA _ _ _ (by simp)

theorem toposort_perm {st : Migrator} {ts : List Nat} (h : toposort st = some ts) :
    ts.Perm (List.range st.nodes.length) := by
  have := kahnAux_perm h
  simpa using this

theorem toposort_mem {st : Migrator} {ts : List Nat} (h : toposort st = some ts) (x : Nat) :
    x ∈ ts ↔ x < st.nodes.length := by
  rw [(toposort_perm h).mem_iff, List.mem_range]

/-! Inserting an edge whose reverse path does not exist preserves
acyclicity (the daggy add_edge contract). -/

theorem rtg_add_edge_decomp {st st' : Migrator} {p i : Nat}
    (hEq : st'.edges = st.edges ++ [(p, i)])
    (hni : ¬ Relation.ReflTransGen (Step st) i p) {x y : Nat}
    (h : Relation.ReflTransGen (Step st') x y) :
    Relation.ReflTransGen (Step st) x y ∨
      (Relation.ReflTransGen (Step st) x p ∧ Relation.ReflTransGen (Step st) i y) := by
  induction h using Relation.ReflTransGen.head_induction_on with
  | refl => exact Or.inl Relation.ReflTransGen.refl
  | head hstep _ ih =>
    rename_i a c _
    have hmem : (a, c) ∈ st.edges ++ [(p, i)] := by
      rw [← hEq]
      exact hstep
    rcases List.mem_append.1 hmem with hold | hnew
    · rcases ih with h' | ⟨hcp, hiy⟩
      · exact Or.inl (Relation.ReflTransGen.head hold h')
      · exact Or.inr ⟨Relation.ReflTransGen.head hold hcp, hiy⟩
    · have hac : a = p ∧ c = i := by simpa using hnew
      rcases hac with ⟨ha, hc⟩
      subst ha
      subst hc
      rcases ih with h' | ⟨hip, _⟩
      · exact Or.inr ⟨Relation.ReflTransGen.refl, h'⟩
      · exact absurd hip hni

theorem acyclic_add_edge {st st' : Migrator} {p i : Nat}
    (hEq : st'.edges = st.edges ++ [(p, i)])
    (hA : Acyclic st) (hni : ¬ Relation.ReflTransGen (Step st) i p) :
    Acyclic st' := by
  intro x hx
  rcases Relation.TransGen.head'_iff.1 hx with ⟨c, hxc, hcx⟩
  have hmem : (x, c) ∈ st.edges ++ [(p, i)] := by
    rw [← hEq]
    exact hxc
  rcases List.mem_append.1 hmem with hold | hnew
  · rcases rtg_add_edge_decomp hEq hni hcx with h' | ⟨hcp, hix⟩
    · exact hA x (Relation.TransGen.head'_iff.2 ⟨c, hold, h'⟩)
    · exact hni (hix.trans (Relation.ReflTransGen.head hold hcp))
  · have hac : x = p ∧ c = i := by simpa using hnew
    rcases hac with ⟨hx', hc⟩
    subst hx'
    subst hc
    rcases rtg_add_edge_decomp hEq hni hcx with h' | ⟨hip, _⟩
    · exact hni h'
    · exact hni hip

/-! The worklist loop of induced_stream computes exactly the ids reachable
in the walk direction from the queue, whenever it returns. -/

theorem get?_some_getD {l : List Migration} {n : Nat} {a : Migration}
    (h : l[n]? = some a) : n < l.length ∧ l.getD n default = a := by
  have hlt : n < l.length := by
    by_contra hge
    rw [List.getElem?_eq_none (Nat.le_of_not_lt hge)] at h
    exact absurd h (by simp)
  refine ⟨hlt, ?_⟩
  rw [List.getD_eq_getElem?_getD, h]
  rfl

theorem reach_head_decomp {st : Migrator} {dir : Dir} {idx j : Nat} :
    Reach st dir idx j ↔ j = idx ∨ ∃ i ∈ nbrs st dir idx, Reach st dir i j := by
  constructor
  · intro h
    rcases Relation.ReflTransGen.cases_head h with h' | ⟨c, hc, hcj⟩
    · exact Or.inl h'.symm
    · exact Or.inr ⟨c, hc, hcj⟩
  · rintro (rfl | ⟨i, hi, hij⟩)
    · exact Relation.ReflTransGen.refl
    · exact Relation.ReflTransGen.head hi hij

theorem bfsAux_char {st : Migrator} {dir : Dir} :
    ∀ {fuel : Nat} {q : List Nat} {acc res : Finset Uuid},
      bfsAux st dir fuel q acc = some res →
      (res : Set Uuid) =
        ↑acc ∪ { u | ∃ i ∈ q, ∃ j, Reach st dir i j ∧ u = idOf st j } := by
  intro fuel
  induction fuel with
  | zero =>
    intro q acc res h
    cases q with
    | nil =>
      simp only [bfsAux, Option.some.injEq] at h
      subst h
      ext u
      simp
    | cons idx rest => simp [bfsAux] at h
  | succ fuel ih =>
    intro q acc res h
    cases q with
    | nil =>
      simp only [bfsAux, Option.some.injEq] at h
      subst h
      ext u
      simp
    | cons idx rest =>
      cases hget : st.nodes[idx]? with
      | none => simp [bfsAux, hget] at h
      | some m =>
        simp only [bfsAux, hget] at h
        have hid : idOf st idx = m.id := by
          unfold idOf
          rw [(get?_some_getD hget).2]
        have hset := ih h
        ext u
        have hmem := Set.ext_iff.1 hset u
        simp only [Finset.coe_insert, Set.mem_insert_iff, Set.mem_union,
          Set.mem_setOf_eq, List.mem_append, Finset.mem_coe] at hmem
        simp only [Set.mem_union, Set.mem_setOf_eq, List.mem_cons, Finset.mem_coe]
        rw [hmem]
        constructor
        · rintro ((rfl | hacc) | ⟨i, hi | hi, j, hij, hu⟩)
          · exact Or.inr ⟨idx, Or.inl rfl, idx, Relation.ReflTransGen.refl, hid.symm⟩
          · exact Or.inl hacc
          · exact Or.inr ⟨i, Or.inr hi, j, hij, hu⟩
          · exact Or.inr ⟨idx, Or.inl rfl, j, Relation.ReflTransGen.head hi hij, hu⟩
        · rintro (hacc | ⟨i, rfl | hi, j, hij, hu⟩)
          · exact Or.inl (Or.inr hacc)
          · rcases reach_head_decomp.1 hij with rfl | ⟨i', hi', hij'⟩
            · exact Or.inl (Or.inl (by rw [hu, hid]))
            · exact Or.inr ⟨i', Or.inr hi', j, hij', hu⟩
          · exact Or.inr ⟨i, Or.inl hi, j, hij, hu⟩

theorem bfsAux_subset {st : Migrator} {dir : Dir} :
    ∀ {fuel : Nat} {q : List Nat} {acc res : Finset Uuid},
      bfsAux st dir fuel q acc = some res →
      ∀ u ∈ res, u ∈ acc ∨ ∃ j < st.nodes.length, u = idOf st j := by
  intro fuel
  induction fuel with
  | zero =>
    intro q acc res h u hu
    cases q with
    | nil =>
      simp only [bfsAux, Option.some.injEq] at h
      subst h
      exact Or.inl hu
    | cons idx rest => simp [bfsAux] at h
  | succ fuel ih =>
    intro q acc res h u hu
    cases q with
    | nil =>
      simp only [bfsAux, Option.some.injEq] at h
      subst h
      exact Or.inl hu
    | cons idx rest =>
      cases hget : st.nodes[idx]? with
      | none => simp [bfsAux, hget] at h
      | some m =>
        simp only [bfsAux, hget] at h
        rcases ih h u hu with hin | hex
        · rcases Finset.mem_insert.1 hin with rfl | hacc
          · refine Or.inr ⟨idx, (get?_some_getD hget).1, ?_⟩
            unfold idOf
            rw [(get?_some_getD hget).2]
          · exact Or.inl hacc
        · exact Or.inr hex

/-! Termination of the worklist loop on acyclic graphs: a rank-weighted
measure strictly decreases at each pop. -/

theorem nbrs_length_le (st : Migrator) (dir : Dir) (i : Nat) :
    (nbrs st dir i).length ≤ st.edges.length := by
  cases dir <;>
    simpa [nbrs] using List.length_filter_le _ _

theorem bfsAux_terminates {st : Migrator} {dir : Dir} {rkD : Nat → Nat}
    (hE : EdgesValid st)
    (hrk : ∀ i j, j ∈ nbrs st dir i → rkD j < rkD i) :
    ∀ (fuel : Nat) (q : List Nat) (acc : Finset Uuid),
      (∀ i ∈ q, i < st.nodes.length) →
      qMeasure (st.edges.length + 1) rkD q < fuel →
      (bfsAux st dir fuel q acc).isSome := by
  intro fuel
  induction fuel with
  | zero =>
    intro q acc _ hm
    exact absurd hm (Nat.not_lt_zero _)
  | succ fuel ih =>
    intro q acc hq hm
    cases q with
    | nil => simp [bfsAux]
    | cons idx rest =>
      have hidx : idx < st.nodes.length := hq idx (List.mem_cons_self idx rest)
      obtain ⟨m, hget⟩ : ∃ m, st.nodes[idx]? = some m := by
        rw [List.getElem?_eq_getElem hidx]
        exact ⟨_, rfl⟩
      simp only [bfsAux, hget]
      apply ih
      · intro i hi
        rcases List.mem_append.1 hi with h' | h'
        · exact hq i (List.mem_cons_of_mem idx h')
        · exact nbrs_valid hE h'
      · set B := st.edges.length + 1 with hB
        have hsplit : qMeasure B rkD (rest ++ nbrs st dir idx) =
            qMeasure B rkD rest + qMeasure B rkD (nbrs st dir idx) := by
          unfold qMeasure
          rw [List.map_append, List.sum_append]
        have hterm : ∀ x ∈ (nbrs st dir idx).map (fun i => B ^ (rkD i + 1)),
            x ≤ B ^ rkD idx := by
          intro x hx
          rcases List.mem_map.1 hx with ⟨j, hj, rfl⟩
          have : rkD j + 1 ≤ rkD idx := hrk idx j hj
          exact Nat.pow_le_pow_right (Nat.succ_le_succ (Nat.zero_le _)) this
        have hnbrs : qMeasure B rkD (nbrs st dir idx) ≤
            st.edges.length * B ^ rkD idx := by
          unfold qMeasure
          calc ((nbrs st dir idx).map (fun i => B ^ (rkD i + 1))).sum
              ≤ ((nbrs st dir idx).map (fun i => B ^ (rkD i + 1))).length •
                  (B ^ rkD idx) := List.sum_le_card_nsmul _ _ hterm
            _ = (nbrs st dir idx).length * B ^ rkD idx := by
                rw [List.length_map, smul_eq_mul]
            _ ≤ st.edges.length * B ^ rkD idx :=
                Nat.mul_le_mul_right _ (nbrs_length_le st dir idx)
        have hhead : qMeasure B rkD (idx :: rest) =
            B ^ rkD idx * st.edges.length + B ^ rkD idx + qMeasure B rkD rest := by
          unfold qMeasure
          rw [List.map_cons, List.sum_cons]
          have : B ^ (rkD idx + 1) = B ^ rkD idx * st.edges.length + B ^ rkD idx := by
            rw [pow_succ, hB]
            ring
          rw [this]
        have hpos : 1 ≤ B ^ rkD idx := Nat.one_le_pow _ _ (by omega)
        have hmul : st.edges.length * B ^ rkD idx = B ^ rkD idx * st.edges.length :=
          Nat.mul_comm _ _
        rw [hsplit]
        rw [hhead] at hm
        omega

/-! lookupAll facts. -/

theorem lookupAll_isSome {st : Migrator} {l : List Uuid}
    (h : ∀ u ∈ l, (lookupId st.idMap u).isSome) : (lookupAll st l).isSome := by
  induction l with
  | nil => simp [lookupAll]
  | cons u us ih =>
    have hu := h u (List.mem_cons_self u us)
    obtain ⟨i, hi⟩ := Option.isSome_iff_exists.1 hu
    have hus := ih (fun v hv => h v (List.mem_cons_of_mem u hv))
    obtain ⟨is, his⟩ := Option.isSome_iff_exists.1 hus
    simp [lookupAll, hi, his]

theorem lookupAll_mem {st : Migrator} :
    ∀ {l : List Uuid} {q : List Nat}, lookupAll st l = some q →
      ∀ x, (x ∈ q ↔ ∃ u ∈ l, lookupId st.idMap u = some x) := by
  intro l
  induction l with
  | nil =>
    intro q h x
    simp only [lookupAll, Option.some.injEq] at h
    subst h
    simp
  | cons u us ih =>
    intro q h x
    rw [lookupAll] at h
    cases hu : lookupId st.idMap u with
    | none => rw [hu] at h; simp at h
    | some i =>
      rw [hu] at h
      cases hus : lookupAll st us with
      | none => rw [hus] at h; simp at h
      | some is =>
        rw [hus] at h
        simp only [Option.some.injEq] at h
        subst h
        simp only [List.mem_cons]
        constructor
        · rintro (rfl | hx)
          · exact ⟨u, Or.inl rfl, hu⟩
          · rcases (ih hus x).1 hx with ⟨v, hv, hlv⟩
            exact ⟨v, Or.inr hv, hlv⟩
        · rintro ⟨v, rfl | hv, hlv⟩
          · rw [hu] at hlv
            exact Or.inl (Option.some.inj hlv).symm
          · exact Or.inr ((ih hus x).2 ⟨v, hv, hlv⟩)

theorem lookupAll_length {st : Migrator} :
    ∀ {l : List Uuid} {q : List Nat}, lookupAll st l = some q → q.length = l.length := by
  intro l
  induction l with
  | nil =>
    intro q h
    simp only [lookupAll, Option.some.injEq] at h
    subst h
    rfl
  | cons u us ih =>
    intro q h
    rw [lookupAll] at h
    cases hu : lookupId st.idMap u with
    | none => rw [hu] at h; simp at h
    | some i =>
      rw [hu] at h
      cases hus : lookupAll st us with
      | none => rw [hus] at h; simp at h
      | some is =>
        rw [hus] at h
        simp only [Option.some.injEq] at h
        subst h
        simp [ih hus]

theorem lookupAll_none {st : Migrator} {l : List Uuid}
    (h : ∃ u ∈ l, lookupId st.idMap u = none) : lookupAll st l = none := by
  induction l with
  | nil => simp at h
  | cons u us ih =>
    rcases h with ⟨v, hv, hlv⟩
    rw [lookupAll]
    rcases List.mem_cons.1 hv with rfl | hv'
    · rw [hlv]
    · cases hu : lookupId st.idMap u with
      | none => rfl
      | some i =>
        rw [ih ⟨v, hv', hlv⟩]

/-! WF helpers. -/

theorem WF.lookup_spec {st : Migrator} (hwf : WF st) {u : Uuid} {i : Nat}
    (h : lookupId st.idMap u = some i) : i < st.nodes.length ∧ idOf st i = u := by
  have := hwf.idmap_valid _ (lookupId_mem h)
  exact ⟨this.1, this.2⟩

theorem WF.lookup_idOf {st : Migrator} (hwf : WF st) {i : Nat}
    (h : i < st.nodes.length) : lookupId st.idMap (idOf st i) = some i :=
  hwf.ids_indexed i h

theorem WF.id_inj {st : Migrator} (hwf : WF st) {i j : Nat}
    (hi : i < st.nodes.length) (hj : j < st.nodes.length)
    (h : idOf st i = idOf st j) : i = j := by
  have h1 := hwf.lookup_idOf hi
  have h2 := hwf.lookup_idOf hj
  rw [h] at h1
  exact Option.some.inj (h1.symm.trans h2)

/-- The bfsFuel budget suffices on any well-indexed acyclic graph when the
queue is valid and no longer than the node count. -/
theorem bfsFuel_enough {st : Migrator} (hE : EdgesValid st) (hA : Acyclic st)
    (dir : Dir) (q : List Nat) (acc : Finset Uuid)
    (hq : ∀ i ∈ q, i < st.nodes.length) (hlen : q.length ≤ st.nodes.length) :
    (bfsAux st dir (bfsFuel st) q acc).isSome := by
  obtain ⟨rk, hrk, hrkb⟩ := exists_bounded_rank hE hA
  set n := st.nodes.length with hn
  set rkD : Nat → Nat := (match dir with
    | Dir.incoming => rk
    | Dir.outgoing => fun i => n - rk i) with hrkD
  have hstep : ∀ i j, j ∈ nbrs st dir i → rkD j < rkD i := by
    intro i j hj
    cases dir with
    | incoming =>
      have := hrk _ (mem_nbrs_incoming.1 hj)
      simpa [hrkD] using this
    | outgoing =>
      have h1 := hrk _ (mem_nbrs_outgoing.1 hj)
      have h2 := hrkb j
      simp only [hrkD, hn]
      simp only at h1 h2
      omega
  have hbound : ∀ i, rkD i ≤ n := by
    intro i
    cases dir with
    | incoming => simpa [hrkD] using hrkb i
    | outgoing => simp [hrkD]
  apply bfsAux_terminates hE hstep _ _ acc hq
  set B := st.edges.length + 1 with hB
  have hterm : ∀ x ∈ q.map (fun i => B ^ (rkD i + 1)), x ≤ B ^ (n + 1) := by
    intro x hx
    rcases List.mem_map.1 hx with ⟨j, hj, rfl⟩
    exact Nat.pow_le_pow_right (by omega) (Nat.succ_le_succ (hbound j))
  have hsum : qMeasure B rkD q ≤ q.length * B ^ (n + 1) := by
    unfold qMeasure
    calc (q.map (fun i => B ^ (rkD i + 1))).sum
        ≤ (q.map (fun i => B ^ (rkD i + 1))).length • (B ^ (n + 1)) :=
          List.sum_le_card_nsmul _ _ hterm
      _ = q.length * B ^ (n + 1) := by rw [List.length_map, smul_eq_mul]
  have hle2 : q.length * B ^ (n + 1) ≤ n * B ^ (n + 1) :=
    Nat.mul_le_mul_right _ hlen
  have hle3 : n * B ^ (n + 1) ≤ B ^ (n + 1) * (n + 1) := by
    rw [Nat.mul_comm]
    exact Nat.mul_le_mul_left _ (Nat.le_succ n)
  have hfuel : bfsFuel st = B ^ (n + 1) * (n + 1) + 1 := by
    unfold bfsFuel
    rw [← hB, ← hn]
  rw [hfuel]
  omega

/-! Characterization of induced_stream on well-formed states. -/

theorem inducedStream_unknown {st : Migrator} {u : Uuid} {dir : Dir}
    (hl : lookupId st.idMap u = none) :
    inducedStream st (some u) dir = some (.error (.unknownId u)) := by
  have hts : targetStart st (some u) dir = .error (.unknownId u) := by
    unfold targetStart
    simp [hl]
  simp only [inducedStream, hts]

theorem inducedStream_some_spec {st : Migrator} (hwf : WF st) {u : Uuid} {ix : Nat}
    (hl : lookupId st.idMap u = some ix) (dir : Dir) :
    ∃ T : Finset Uuid, inducedStream st (some u) dir = some (.ok T) ∧
      (T : Set Uuid) = { w | ∃ j, Reach st dir ix j ∧ w = idOf st j } := by
  have hts : targetStart st (some u) dir = .ok {u} := by
    unfold targetStart
    simp [hl]
  have hsort : sortedIds {u} = [u] := sortedIds_singleton u
  have hla : lookupAll st [u] = some [ix] := by
    simp [lookupAll, hl]
  have hx := hwf.lookup_spec hl
  have hbfs : (bfsAux st dir (bfsFuel st) [ix] {u}).isSome := by
    apply bfsFuel_enough hwf.edges_valid hwf.acyclic
    · intro i hi
      rw [List.mem_singleton.1 hi]
      exact hx.1
    · simp only [List.length_singleton]
      omega
  obtain ⟨T, hT⟩ := Option.isSome_iff_exists.1 hbfs
  refine ⟨T, ?_, ?_⟩
  · simp only [inducedStream, hts, hsort, hla, hT]
  · have hchar := bfsAux_char hT
    rw [hchar]
    ext w
    simp only [Finset.coe_singleton, Set.mem_union, Set.mem_singleton_iff,
      Set.mem_setOf_eq, List.mem_singleton]
    constructor
    · rintro (rfl | ⟨i, rfl, j, hij, hw⟩)
      · exact ⟨ix, Relation.ReflTransGen.refl, hx.2.symm⟩
      · exact ⟨j, hij, hw⟩
    · intro h
      exact Or.inr ⟨ix, rfl, h⟩

theorem inducedStream_none_spec {st : Migrator} (hwf : WF st) (dir : Dir) :
    ∃ T : Finset Uuid, inducedStream st none dir = some (.ok T) ∧
      (T : Set Uuid) =
        { w | ∃ s ∈ externals st dir.opposite,
            ∃ j, Reach st dir s j ∧ w = idOf st j } := by
  set exts := externals st dir.opposite with hexts
  set targets := (exts.map (fun i => (st.nodes.getD i default).id)).toFinset with htg
  have hextlt : ∀ s ∈ exts, s < st.nodes.length := by
    intro s hs
    rw [hexts] at hs
    unfold externals at hs
    exact List.mem_range.1 (List.mem_of_mem_filter hs)
  have htmem : ∀ u, u ∈ targets ↔ ∃ s ∈ exts, u = idOf st s := by
    intro u
    rw [htg]
    simp only [List.mem_toFinset, List.mem_map]
    constructor
    · rintro ⟨s, hs, rfl⟩
      exact ⟨s, hs, rfl⟩
    · rintro ⟨s, hs, rfl⟩
      exact ⟨s, hs, rfl⟩
  have hts : targetStart st none dir = .ok targets := rfl
  set l := sortedIds targets with hls
  have hmeml : ∀ u, u ∈ l ↔ u ∈ targets := by
    intro u
    rw [hls]
    exact mem_sortedIds
  have hlasome : (lookupAll st l).isSome := by
    apply lookupAll_isSome
    intro u hu
    rcases (htmem u).1 ((hmeml u).1 hu) with ⟨s, hs, rfl⟩
    rw [hwf.lookup_idOf (hextlt s hs)]
    rfl
  obtain ⟨q, hq⟩ := Option.isSome_iff_exists.1 hlasome
  have hqmem := lookupAll_mem hq
  have hqvalid : ∀ x ∈ q, x < st.nodes.length := by
    intro x hx
    rcases (hqmem x).1 hx with ⟨u, _, hlu⟩
    exact (hwf.lookup_spec hlu).1
  have hqlen : q.length ≤ st.nodes.length := by
    rw [lookupAll_length hq, hls, length_sortedIds, htg]
    calc (exts.map (fun i => (st.nodes.getD i default).id)).toFinset.card
        ≤ (exts.map (fun i => (st.nodes.getD i default).id)).length :=
          (exts.map (fun i => (st.nodes.getD i default).id)).toFinset_card_le
      _ = exts.length := List.length_map _ _
      _ ≤ st.nodes.length := by
          rw [hexts]
          unfold externals
          calc ((List.range st.nodes.length).filter
                  (fun i => (nbrs st dir.opposite i).isEmpty)).length
              ≤ (List.range st.nodes.length).length := List.length_filter_le _ _
            _ = st.nodes.length := List.length_range _
  have hbfs : (bfsAux st dir (bfsFuel st) q targets).isSome :=
    bfsFuel_enough hwf.edges_valid hwf.acyclic dir q targets hqvalid hqlen
  obtain ⟨T, hT⟩ := Option.isSome_iff_exists.1 hbfs
  refine ⟨T, ?_, ?_⟩
  · simp only [inducedStream, hts, ← hls, hq, hT]
  · have hchar := bfsAux_char hT
    rw [hchar]
    ext w
    simp only [Set.mem_union, Set.mem_setOf_eq, Finset.mem_coe]
    constructor
    · rintro (hw | ⟨i, hi, j, hij, hw⟩)
      · rcases (htmem w).1 hw with ⟨s, hs, rfl⟩
        exact ⟨s, hs, s, Relation.ReflTransGen.refl, rfl⟩
      · rcases (hqmem i).1 hi with ⟨u, hul, hlu⟩
        rcases (htmem u).1 ((hmeml u).1 hul) with ⟨s, hs, rfl⟩
        have : lookupId st.idMap (idOf st s) = some s := hwf.lookup_idOf (hextlt s hs)
        have hieq : i = s := Option.some.inj (hlu.symm.trans this)
        subst hieq
        exact ⟨i, hs, j, hij, hw⟩
    · rintro ⟨s, hs, j, hij, hw⟩
      right
      refine ⟨s, ?_, j, hij, hw⟩
      apply (hqmem s).2
      refine ⟨idOf st s, (hmeml _).2 ((htmem _).2 ⟨s, hs, rfl⟩), ?_⟩
      exact hwf.lookup_idOf (hextlt s hs)

/-! The up walk loop: full characterization by its action plan. -/

theorem upPlan_nil (st : Migrator) (targets applied0 : Finset Uuid) :
    upPlan st targets applied0 [] = [] := rfl

theorem upPlan_cons_skip {st : Migrator} {targets applied0 : Finset Uuid} {idx : Nat}
    (rest : List Nat)
    (h : (st.nodes.getD idx default).id ∈ applied0 ∨
      (st.nodes.getD idx default).id ∉ targets) :
    upPlan st targets applied0 (idx :: rest) = upPlan st targets applied0 rest := by
  unfold upPlan
  rw [List.map_cons, List.filter_cons]
  have : ¬((st.nodes.getD idx default).id ∉ applied0 ∧
      (st.nodes.getD idx default).id ∈ targets) := by
    rcases h with h | h
    · rintro ⟨h1, _⟩
      exact h1 h
    · rintro ⟨_, h2⟩
      exact h h2
  rw [decide_eq_false this]
  simp

theorem upPlan_cons_act {st : Migrator} {targets applied0 : Finset Uuid} {idx : Nat}
    (rest : List Nat)
    (h : ¬((st.nodes.getD idx default).id ∈ applied0 ∨
      (st.nodes.getD idx default).id ∉ targets)) :
    upPlan st targets applied0 (idx :: rest) =
      st.nodes.getD idx default :: upPlan st targets applied0 rest := by
  unfold upPlan
  rw [List.map_cons, List.filter_cons]
  push_neg at h
  rw [decide_eq_true (show _ ∧ _ from h)]
  simp

theorem upWalk_ok {E : Type} {st : Migrator} {targets applied0 : Finset Uuid} :
    ∀ (ts : List Nat) (ad : MemAdapter E),
      (∀ m ∈ upPlan st targets applied0 ts, ad.applyFail m.id = none) →
      upWalk st targets applied0 ad ts =
        (.ok (), { ad with applied := ad.applied ∪
            ((upPlan st targets applied0 ts).map Migration.id).toFinset },
          (upPlan st targets applied0 ts).map Migration.id) := by
  intro ts
  induction ts with
  | nil =>
    intro ad _
    rw [upPlan_nil]
    simp [upWalk]
  | cons idx rest ih =>
    intro ad hok
    by_cases hskip : (st.nodes.getD idx default).id ∈ applied0 ∨
        (st.nodes.getD idx default).id ∉ targets
    · rw [upPlan_cons_skip rest hskip]
      rw [upPlan_cons_skip rest hskip] at hok
      simp only [upWalk]
      rw [if_pos hskip]
      exact ih ad hok
    · rw [upPlan_cons_act rest hskip]
      rw [upPlan_cons_act rest hskip] at hok
      have hnone : ad.applyFail (st.nodes.getD idx default).id = none :=
        hok _ (List.mem_cons_self _ _)
      simp only [upWalk]
      rw [if_neg hskip]
      simp only [hnone]
      have hih := ih { ad with applied := insert (st.nodes.getD idx default).id ad.applied }
        (fun m hm => hok m (List.mem_cons_of_mem _ hm))
      rw [hih]
      simp only [List.map_cons, List.toFinset_cons]
      rw [Finset.insert_union, Finset.union_insert]

theorem upWalk_fail {E : Type} {st : Migrator} {targets applied0 : Finset Uuid} :
    ∀ (ts : List Nat) (ad : MemAdapter E) (pre : List Migration) (mf : Migration)
      (post : List Migration) (e : E),
      upPlan st targets applied0 ts = pre ++ mf :: post →
      (∀ m ∈ pre, ad.applyFail m.id = none) →
      ad.applyFail mf.id = some e →
      upWalk st targets applied0 ad ts =
        (.error (.migration mf.id mf.description .up e),
          { ad with applied := ad.applied ∪ (pre.map Migration.id).toFinset },
          pre.map Migration.id ++ [mf.id]) := by
  intro ts
  induction ts with
  | nil =>
    intro ad pre mf post e hplan _ _
    rw [upPlan_nil] at hplan
    simp at hplan
  | cons idx rest ih =>
    intro ad pre mf post e hplan hpre hfail
    by_cases hskip : (st.nodes.getD idx default).id ∈ applied0 ∨
        (st.nodes.getD idx default).id ∉ targets
    · rw [upPlan_cons_skip rest hskip] at hplan
      simp only [upWalk]
      rw [if_pos hskip]
      exact ih ad pre mf post e hplan hpre hfail
    · rw [upPlan_cons_act rest hskip] at hplan
      cases pre with
      | nil =>
        simp only [List.nil_append] at hplan
        have hm : st.nodes.getD idx default = mf := (List.cons.injEq _ _ _ _ ▸ hplan).1
        simp only [upWalk]
        rw [if_neg hskip]
        rw [hm, hfail]
        simp
      | cons p pre' =>
        simp only [List.cons_append, List.cons.injEq] at hplan
        rcases hplan with ⟨hp, hplan'⟩
        have hnone : ad.applyFail (st.nodes.getD idx default).id = none := by
          rw [hp]
          exact hpre p (List.mem_cons_self _ _)
        simp only [upWalk]
        rw [if_neg hskip]
        simp only [hnone]
        have hih := ih { ad with applied := insert (st.nodes.getD idx default).id ad.applied }
          pre' mf post e hplan' (fun m hm => hpre m (List.mem_cons_of_mem _ hm)) hfail
        rw [hih]
        simp only [List.map_cons, List.toFinset_cons, List.cons_append]
        rw [Finset.insert_union, Finset.union_insert, hp]

/-! The down walk loop, symmetric to the up walk. -/

theorem downPlan_nil (st : Migrator) (targets applied0 : Finset Uuid) :
    downPlan st targets applied0 [] = [] := rfl

theorem downPlan_cons_skip {st : Migrator} {targets applied0 : Finset Uuid} {idx : Nat}
    (rest : List Nat)
    (h : (st.nodes.getD idx default).id ∉ applied0 ∨
      (st.nodes.getD idx default).id ∉ targets) :
    downPlan st targets applied0 (idx :: rest) = downPlan st targets applied0 rest := by
  unfold downPlan
  rw [List.map_cons, List.filter_cons]
  have : ¬((st.nodes.getD idx default).id ∈ applied0 ∧
      (st.nodes.getD idx default).id ∈ targets) := by
    rcases h with h | h
    · rintro ⟨h1, _⟩
      exact h h1
    · rintro ⟨_, h2⟩
      exact h h2
  rw [decide_eq_false this]
  simp

theorem downPlan_cons_act {st : Migrator} {targets applied0 : Finset Uuid} {idx : Nat}
    (rest : List Nat)
    (h : ¬((st.nodes.getD idx default).id ∉ applied0 ∨
      (st.nodes.getD idx default).id ∉ targets)) :
    downPlan st targets applied0 (idx :: rest) =
      st.nodes.getD idx default :: downPlan st targets applied0 rest := by
  unfold downPlan
  rw [List.map_cons, List.filter_cons]
  push_neg at h
  rw [decide_eq_true (show _ ∧ _ from h)]
  simp

theorem downWalk_ok {E : Type} {st : Migrator} {targets applied0 : Finset Uuid} :
    ∀ (ts : List Nat) (ad : MemAdapter E),
      (∀ m ∈ downPlan st targets applied0 ts, ad.revertFail m.id = none) →
      downWalk st targets applied0 ad ts =
        (.ok (), { ad with applied := ad.applied \
            ((downPlan st targets applied0 ts).map Migration.id).toFinset },
          (downPlan st targets applied0 ts).map Migration.id) := by
  intro ts
  induction ts with
  | nil =>
    intro ad _
    rw [downPlan_nil]
    simp [downWalk]
  | cons idx rest ih =>
    intro ad hok
    by_cases hskip : (st.nodes.getD idx default).id ∉ applied0 ∨
        (st.nodes.getD idx default).id ∉ targets
    · rw [downPlan_cons_skip rest hskip]
      rw [downPlan_cons_skip rest hskip] at hok
      simp only [downWalk]
      rw [if_pos hskip]
      exact ih ad hok
    · rw [downPlan_cons_act rest hskip]
      rw [downPlan_cons_act rest hskip] at hok
      have hnone : ad.revertFail (st.nodes.getD idx default).id = none :=
        hok _ (List.mem_cons_self _ _)
      simp only [downWalk]
      rw [if_neg hskip]
      simp only [hnone]
      have hih := ih { ad with applied := ad.applied.erase (st.nodes.getD idx default).id }
        (fun m hm => hok m (List.mem_cons_of_mem _ hm))
      rw [hih]
      simp only [List.map_cons, List.toFinset_cons]
      rw [Finset.erase_eq, sdiff_sdiff, Finset.insert_eq, Finset.sup_eq_union]

theorem downWalk_fail {E : Type} {st : Migrator} {targets applied0 : Finset Uuid} :
    ∀ (ts : List Nat) (ad : MemAdapter E) (pre : List Migration) (mf : Migration)
      (post : List Migration) (e : E),
      downPlan st targets applied0 ts = pre ++ mf :: post →
      (∀ m ∈ pre, ad.revertFail m.id = none) →
      ad.revertFail mf.id = some e →
      downWalk st targets applied0 ad ts =
        (.error (.migration mf.id mf.description .down e),
          { ad with applied := ad.applied \ (pre.map Migration.id).toFinset },
          pre.map Migration.id ++ [mf.id]) := by
  intro ts
  induction ts with
  | nil =>
    intro ad pre mf post e hplan _ _
    rw [downPlan_nil] at hplan
    simp at hplan
  | cons idx rest ih =>
    intro ad pre mf post e hplan hpre hfail
    by_cases hskip : (st.nodes.getD idx default).id ∉ applied0 ∨
        (st.nodes.getD idx default).id ∉ targets
    · rw [downPlan_cons_skip rest hskip] at hplan
      simp only [downWalk]
      rw [if_pos hskip]
      exact ih ad pre mf post e hplan hpre hfail
    · rw [downPlan_cons_act rest hskip] at hplan
      cases pre with
      | nil =>
        simp only [List.nil_append] at hplan
        have hm : st.nodes.getD idx default = mf := (List.cons.injEq _ _ _ _ ▸ hplan).1
        simp only [downWalk]
        rw [if_neg hskip]
        rw [hm, hfail]
        simp
      | cons p pre' =>
        simp only [List.cons_append, List.cons.injEq] at hplan
        rcases hplan with ⟨hp, hplan'⟩
        have hnone : ad.revertFail (st.nodes.getD idx default).id = none := by
          rw [hp]
          exact hpre p (List.mem_cons_self _ _)
        simp only [downWalk]
        rw [if_neg hskip]
        simp only [hnone]
        have hih := ih { ad with applied := ad.applied.erase (st.nodes.getD idx default).id }
          pre' mf post e hplan' (fun m hm => hpre m (List.mem_cons_of_mem _ hm)) hfail
        rw [hih]
        simp only [List.map_cons, List.toFinset_cons, List.cons_append]
        rw [Finset.erase_eq, sdiff_sdiff, Finset.insert_eq, Finset.sup_eq_union, hp]

/-! From induced_stream characterizations to the top-level operations. -/

theorem reach_outgoing_iff {st : Migrator} {i j : Nat} :
    Reach st .outgoing i j ↔ Relation.ReflTransGen (Step st) i j := by
  constructor
  · intro h
    exact Relation.ReflTransGen.mono (fun a b hab => stepD_outgoing_iff.1 hab) h
  · intro h
    exact Relation.ReflTransGen.mono (fun a b hab => stepD_outgoing_iff.2 hab) h

theorem inducedStream_ids {st : Migrator} (hwf : WF st) {to? : Option Uuid} {dir : Dir}
    {T : Finset Uuid} (h : inducedStream st to? dir = some (.ok T)) :
    ∀ u ∈ T, ∃ j < st.nodes.length, u = idOf st j := by
  intro u hu
  cases to? with
  | some v =>
    cases hl : lookupId st.idMap v with
    | none => rw [inducedStream_unknown hl] at h; simp at h
    | some ix =>
      obtain ⟨T', hT', hchar⟩ := inducedStream_some_spec hwf hl dir
      rw [hT'] at h
      have hTT : T' = T := by
        simpa using h
      subst hTT
      have := (Set.ext_iff.1 hchar u).1 hu
      rcases this with ⟨j, hij, rfl⟩
      exact ⟨j, reach_valid hwf.edges_valid (hwf.lookup_spec hl).1 hij, rfl⟩
  | none =>
    obtain ⟨T', hT', hchar⟩ := inducedStream_none_spec hwf dir
    rw [hT'] at h
    have hTT : T' = T := by
      simpa using h
    subst hTT
    have := (Set.ext_iff.1 hchar u).1 hu
    rcases this with ⟨s, hs, j, hij, rfl⟩
    have hslt : s < st.nodes.length := by
      unfold externals at hs
      exact List.mem_range.1 (List.mem_of_mem_filter hs)
    exact ⟨j, reach_valid hwf.edges_valid hslt hij, rfl⟩

/-- The up target set is closed under dependencies: if a dependent's id is
targeted, so is the dependency's. -/
theorem up_targets_closed {st : Migrator} (hwf : WF st) {to? : Option Uuid}
    {T : Finset Uuid} (h : inducedStream st to? .incoming = some (.ok T)) :
    ∀ e ∈ st.edges, idOf st e.2 ∈ T → idOf st e.1 ∈ T := by
  intro e he hmem
  have hstep : StepD st .incoming e.2 e.1 := by
    rw [stepD_incoming_iff]
    unfold Step
    rwa [Prod.mk.eta]
  cases to? with
  | some v =>
    cases hl : lookupId st.idMap v with
    | none => rw [inducedStream_unknown hl] at h; simp at h
    | some ix =>
      obtain ⟨T', hT', hchar⟩ := inducedStream_some_spec hwf hl Dir.incoming
      rw [hT'] at h
      have hTT : T' = T := by simpa using h
      subst hTT
      rcases (Set.ext_iff.1 hchar _).1 hmem with ⟨j, hij, hj⟩
      have hjlt := reach_valid hwf.edges_valid (hwf.lookup_spec hl).1 hij
      have he2 := (hwf.edges_valid e he).2
      have : e.2 = j := hwf.id_inj he2 hjlt hj
      subst this
      exact (Set.ext_iff.1 hchar _).2 ⟨e.1, hij.tail hstep, rfl⟩
  | none =>
    obtain ⟨T', hT', hchar⟩ := inducedStream_none_spec hwf Dir.incoming
    rw [hT'] at h
    have hTT : T' = T := by simpa using h
    subst hTT
    rcases (Set.ext_iff.1 hchar _).1 hmem with ⟨s, hs, j, hij, hj⟩
    have hslt : s < st.nodes.length := by
      unfold externals at hs
      exact List.mem_range.1 (List.mem_of_mem_filter hs)
    have hjlt := reach_valid hwf.edges_valid hslt hij
    have he2 := (hwf.edges_valid e he).2
    have : e.2 = j := hwf.id_inj he2 hjlt hj
    subst this
    exact (Set.ext_iff.1 hchar _).2 ⟨s, hs, e.1, hij.tail hstep, rfl⟩

/-! Down target sets after removing the boundary id are closed under
dependents. -/

theorem down_targets_closed {st : Migrator} (hwf : WF st) {to? : Option Uuid}
    {T0 : Finset Uuid} (h : inducedStream st to? .outgoing = some (.ok T0)) :
    ∀ e ∈ st.edges, idOf st e.1 ∈ dTargets to? T0 → idOf st e.2 ∈ dTargets to? T0 := by
  intro e he hmem
  have hstep : StepD st .outgoing e.1 e.2 := by
    rw [stepD_outgoing_iff]
    unfold Step
    rwa [Prod.mk.eta]
  have he1 := (hwf.edges_valid e he).1
  have he2 := (hwf.edges_valid e he).2
  cases to? with
  | some v =>
    cases hl : lookupId st.idMap v with
    | none => rw [inducedStream_unknown hl] at h; simp at h
    | some ix =>
      obtain ⟨T', hT', hchar⟩ := inducedStream_some_spec hwf hl Dir.outgoing
      rw [hT'] at h
      have hTT : T' = T0 := by simpa using h
      subst hTT
      simp only [dTargets, Finset.mem_erase] at hmem ⊢
      rcases hmem with ⟨hne, hmem0⟩
      rcases (Set.ext_iff.1 hchar _).1 hmem0 with ⟨j, hij, hj⟩
      have hjlt := reach_valid hwf.edges_valid (hwf.lookup_spec hl).1 hij
      have : e.1 = j := hwf.id_inj he1 hjlt hj
      subst this
      refine ⟨?_, (Set.ext_iff.1 hchar _).2 ⟨e.2, hij.tail hstep, rfl⟩⟩
      intro hveq
      have hvix : idOf st ix = v := (hwf.lookup_spec hl).2
      rw [← hvix] at hveq
      have : e.2 = ix := hwf.id_inj he2 (hwf.lookup_spec hl).1 hveq
      subst this
      have hrtg : Relation.ReflTransGen (Step st) e.2 e.1 := reach_outgoing_iff.1 hij
      have hstep' : Step st e.1 e.2 := by
        unfold Step
        rwa [Prod.mk.eta]
      exact hwf.acyclic e.2 (Relation.TransGen.tail' hrtg hstep')
  | none =>
    obtain ⟨T', hT', hchar⟩ := inducedStream_none_spec hwf Dir.outgoing
    rw [hT'] at h
    have hTT : T' = T0 := by simpa using h
    subst hTT
    simp only [dTargets] at hmem ⊢
    rcases (Set.ext_iff.1 hchar _).1 hmem with ⟨s, hs, j, hij, hj⟩
    have hslt : s < st.nodes.length := by
      unfold externals at hs
      exact List.mem_range.1 (List.mem_of_mem_filter hs)
    have hjlt := reach_valid hwf.edges_valid hslt hij
    have : e.1 = j := hwf.id_inj he1 hjlt hj
    subst this
    exact (Set.ext_iff.1 hchar _).2 ⟨s, hs, e.2, hij.tail hstep, rfl⟩

theorem mem_upPlan_map_id {st : Migrator} {T applied : Finset Uuid} {l : List Nat}
    (hall : ∀ j, j < st.nodes.length → j ∈ l)
    (hTids : ∀ u ∈ T, ∃ j < st.nodes.length, u = idOf st j) :
    ∀ u, u ∈ (upPlan st T applied l).map Migration.id ↔ (u ∈ T ∧ u ∉ applied) := by
  intro u
  unfold upPlan
  simp only [List.mem_map, List.mem_filter, decide_eq_true_eq]
  constructor
  · rintro ⟨m, ⟨_, hna, hT⟩, rfl⟩
    exact ⟨hT, hna⟩
  · rintro ⟨hT, hna⟩
    rcases hTids u hT with ⟨j, hj, rfl⟩
    exact ⟨st.nodes.getD j default, ⟨⟨j, hall j hj, rfl⟩, hna, hT⟩, rfl⟩

theorem mem_downPlan_map_id {st : Migrator} {T applied : Finset Uuid} {l : List Nat}
    (hall : ∀ j, j < st.nodes.length → j ∈ l)
    (hTids : ∀ u ∈ T, ∃ j < st.nodes.length, u = idOf st j) :
    ∀ u, u ∈ (downPlan st T applied l).map Migration.id ↔ (u ∈ T ∧ u ∈ applied) := by
  intro u
  unfold downPlan
  simp only [List.mem_map, List.mem_filter, decide_eq_true_eq]
  constructor
  · rintro ⟨m, ⟨_, ha, hT⟩, rfl⟩
    exact ⟨hT, ha⟩
  · rintro ⟨hT, ha⟩
    rcases hTids u hT with ⟨j, hj, rfl⟩
    exact ⟨st.nodes.getD j default, ⟨⟨j, hall j hj, rfl⟩, ha, hT⟩, rfl⟩

theorem up_ok_spec {st : Migrator} (hwf : WF st) {to? : Option Uuid} {T : Finset Uuid}
    (hind : inducedStream st to? .incoming = some (.ok T)) (applied : Finset Uuid) :
    ∃ ts, toposort st = some ts ∧
      up st (alwaysOk applied) to? =
        some (.ok (), alwaysOk (applied ∪ T), (upPlan st T applied ts).map Migration.id) ∧
      ∀ u, u ∈ (upPlan st T applied ts).map Migration.id ↔ (u ∈ T ∧ u ∉ applied) := by
  obtain ⟨ts, hts⟩ := Option.isSome_iff_exists.1 (toposort_isSome hwf.acyclic)
  have hmemplan := @mem_upPlan_map_id st T applied ts
    (fun j hj => (toposort_mem hts j).2 hj) (inducedStream_ids hwf hind)
  refine ⟨ts, hts, ?_, hmemplan⟩
  have hwalk := @upWalk_ok _ st T applied ts
    (alwaysOk applied) (fun m _ => rfl)
  have hset : applied ∪ ((upPlan st T applied ts).map Migration.id).toFinset =
      applied ∪ T := by
    ext u
    simp only [Finset.mem_union, List.mem_toFinset]
    rw [hmemplan u]
    tauto
  simp only [up, hind, hts, alwaysOk] at hwalk ⊢
  rw [hwalk, hset]

theorem down_ok_spec {st : Migrator} (hwf : WF st) {to? : Option Uuid} {T0 : Finset Uuid}
    (hind : inducedStream st to? .outgoing = some (.ok T0)) (applied : Finset Uuid) :
    ∃ ts, toposort st = some ts ∧
      down st (alwaysOk applied) to? =
        some (.ok (), alwaysOk (applied \ dTargets to? T0),
          (downPlan st (dTargets to? T0) applied ts.reverse).map Migration.id) ∧
      ∀ u, u ∈ (downPlan st (dTargets to? T0) applied ts.reverse).map Migration.id ↔
        (u ∈ dTargets to? T0 ∧ u ∈ applied) := by
  obtain ⟨ts, hts⟩ := Option.isSome_iff_exists.1 (toposort_isSome hwf.acyclic)
  have hTids : ∀ u ∈ dTargets to? T0, ∃ j < st.nodes.length, u = idOf st j := by
    intro u hu
    apply inducedStream_ids hwf hind
    cases to? with
    | some v => exact Finset.mem_of_mem_erase hu
    | none => exact hu
  have hmemplan := @mem_downPlan_map_id st (dTargets to? T0) applied ts.reverse
    (fun j hj => List.mem_reverse.2 ((toposort_mem hts j).2 hj)) hTids
  refine ⟨ts, hts, ?_, hmemplan⟩
  have hwalk := @downWalk_ok _ st (dTargets to? T0) applied
    ts.reverse (alwaysOk applied) (fun m _ => rfl)
  have hset : applied \
      ((downPlan st (dTargets to? T0) applied ts.reverse).map Migration.id).toFinset =
      applied \ dTargets to? T0 := by
    ext u
    simp only [Finset.mem_sdiff, List.mem_toFinset]
    rw [hmemplan u]
    tauto
  simp only [down, hind, hts, alwaysOk] at hwalk ⊢
  rw [hwalk, hset]

/-! The applied set stays dependency-closed across successful runs. -/

theorem runOps_closed {st : Migrator} (hwf : WF st) :
    ∀ (ops : List Op) (A A' : Finset Uuid),
      (∀ e ∈ st.edges, idOf st e.2 ∈ A → idOf st e.1 ∈ A) →
      runOps st A ops = some A' →
      ∀ e ∈ st.edges, idOf st e.2 ∈ A' → idOf st e.1 ∈ A' := by
  intro ops
  induction ops with
  | nil =>
    intro A A' hA h
    simp only [runOps, Option.some.injEq] at h
    subst h
    exact hA
  | cons op rest ih =>
    intro A A' hA h
    cases op with
    | up t =>
      cases hi : inducedStream st t .incoming with
      | none => simp [runOps, up, hi] at h
      | some r =>
        cases r with
        | error e => simp [runOps, up, hi] at h
        | ok T =>
          obtain ⟨ts, hts, hup, _⟩ := up_ok_spec hwf hi A
          simp only [runOps] at h
          rw [hup] at h
          simp only [alwaysOk] at h
          apply ih (A ∪ T) A' _ h
          intro e he hmem
          rcases Finset.mem_union.1 hmem with hmem | hmem
          · exact Finset.mem_union_left _ (hA e he hmem)
          · exact Finset.mem_union_right _ (up_targets_closed hwf hi e he hmem)
    | down t =>
      cases hi : inducedStream st t .outgoing with
      | none => simp [runOps, down, hi] at h
      | some r =>
        cases r with
        | error e => simp [runOps, down, hi] at h
        | ok T0 =>
          obtain ⟨ts, hts, hdown, _⟩ := down_ok_spec hwf hi A
          simp only [runOps] at h
          rw [hdown] at h
          simp only [alwaysOk] at h
          apply ih (A \ dTargets t T0) A' _ h
          intro e he hmem
          rcases Finset.mem_sdiff.1 hmem with ⟨hmemA, hnot⟩
          apply Finset.mem_sdiff.2
          refine ⟨hA e he hmemA, ?_⟩
          intro hin
          exact hnot (down_targets_closed hwf hi e he hin)

/-- C1: modeling the storage adapter as an in-memory applied-id set with
atomic apply/revert, starting from the empty applied set, after any
sequence of successful up/down calls on a registered (well-formed) graph,
every dependency edge has its dependency applied whenever its dependent is
applied. -/
theorem c1_topological_safety (st : Migrator) (hwf : WF st) (ops : List Op)
    (A : Finset Uuid) (hrun : runOps st ∅ ops = some A) :
    ∀ e ∈ st.edges, idOf st e.2 ∈ A → idOf st e.1 ∈ A :=
  runOps_closed hwf ops ∅ A (fun _ _ hmem => absurd hmem (Finset.not_mem_empty _)) hrun

/-- C2: for every registered migration (id u at node ix), up(Some u) from
the empty applied set with an always-succeeding in-memory adapter returns
Ok and leaves the applied set exactly ancestors(u): u's id together with
the ids of everything it transitively depends on, regardless of what else
is registered. -/
theorem c2_ancestor_closure (st : Migrator) (hwf : WF st) (u : Uuid) (ix : Nat)
    (hl : lookupId st.idMap u = some ix) :
    ∃ ad tr, up st (alwaysOk ∅) (some u) = some (.ok (), ad, tr) ∧
      (ad.applied : Set Uuid) = ancestorIds st ix := by
  obtain ⟨T, hT, hchar⟩ := inducedStream_some_spec hwf hl Dir.incoming
  obtain ⟨ts, hts, hup, _⟩ := up_ok_spec hwf hT ∅
  refine ⟨alwaysOk (∅ ∪ T), _, hup, ?_⟩
  show ((∅ ∪ T : Finset Uuid) : Set Uuid) = ancestorIds st ix
  rw [Finset.empty_union, hchar]
  rfl

/-- C3: for every registered migration (id u at node ix) currently in the
applied set, down(Some u) with an always-succeeding in-memory adapter
returns Ok, keeps u applied, removes every other id in descendants(u) from
the applied set, and only invokes revert actions for ids that were
applied. -/
theorem c3_descendant_closure (st : Migrator) (hwf : WF st) (u : Uuid) (ix : Nat)
    (applied : Finset Uuid) (hl : lookupId st.idMap u = some ix) (hap : u ∈ applied) :
    ∃ ad tr, down st (alwaysOk applied) (some u) = some (.ok (), ad, tr) ∧
      u ∈ ad.applied ∧
      (∀ w ∈ descendantIds st ix, w ≠ u → w ∉ ad.applied) ∧
      ∀ w ∈ tr, w ∈ applied := by
  obtain ⟨T0, hT0, hchar⟩ := inducedStream_some_spec hwf hl Dir.outgoing
  obtain ⟨ts, hts, hdown, hmem⟩ := down_ok_spec hwf hT0 applied
  refine ⟨_, _, hdown, ?_, ?_, ?_⟩
  · show u ∈ applied \ dTargets (some u) T0
    simp only [dTargets, Finset.mem_sdiff]
    exact ⟨hap, Finset.not_mem_erase u T0⟩
  · intro w hw hne
    show w ∉ applied \ dTargets (some u) T0
    simp only [dTargets, Finset.mem_sdiff, not_and, not_not]
    intro _
    apply Finset.mem_erase.2
    refine ⟨hne, ?_⟩
    have : w ∈ (T0 : Set Uuid) := by
      rw [hchar]
      exact hw
    exact this
  · intro w hw
    exact ((hmem w).1 hw).2

/-- C5: for every well-formed graph and every starting applied set, with
the always-succeeding in-memory adapter, up(None) twice in a row yields
the same applied set as once, and the second call invokes zero apply
actions. -/
theorem c5_idempotent_noop (st : Migrator) (hwf : WF st) (applied : Finset Uuid) :
    ∃ ad1 tr1, up st (alwaysOk applied) none = some (.ok (), ad1, tr1) ∧
      up st (alwaysOk ad1.applied) none = some (.ok (), alwaysOk ad1.applied, []) := by
  obtain ⟨T, hT, _⟩ := inducedStream_none_spec hwf Dir.incoming
  obtain ⟨ts, hts, hup1, _⟩ := up_ok_spec hwf hT applied
  obtain ⟨ts2, hts2, hup2, hmem2⟩ := up_ok_spec hwf hT (applied ∪ T)
  refine ⟨alwaysOk (applied ∪ T), _, hup1, ?_⟩
  have hplan2 : (upPlan st T (applied ∪ T) ts2).map Migration.id = [] := by
    rw [List.eq_nil_iff_forall_not_mem]
    intro v hv
    rcases (hmem2 v).1 hv with ⟨hvT, hnv⟩
    exact hnv (Finset.mem_union_right _ hvT)
  rw [hplan2] at hup2
  have hset : (applied ∪ T) ∪ T = applied ∪ T := by
    rw [Finset.union_assoc, Finset.union_self]
  rw [hset] at hup2
  exact hup2

/-! The dependency-edge loop: state shape and error characterization. -/

theorem addDepEdges_state {mid : Uuid} {idx : Nat} :
    ∀ (ds : List Uuid) (st : Migrator),
      (addDepEdges mid idx st ds).2.nodes = st.nodes ∧
      (addDepEdges mid idx st ds).2.idMap = st.idMap ∧
      ∃ suffix, (addDepEdges mid idx st ds).2.edges = st.edges ++ suffix ∧
        ∀ p ∈ suffix, p.2 = idx ∧ ∃ d ∈ ds, lookupId st.idMap d = some p.1 := by
  intro ds
  induction ds with
  | nil =>
    intro st
    refine ⟨rfl, rfl, [], ?_, ?_⟩
    · simp [addDepEdges]
    · simp
  | cons d ds ih =>
    intro st
    cases hl : lookupId st.idMap d with
    | none =>
      refine ⟨?_, ?_, [], ?_, ?_⟩ <;> simp [addDepEdges, hl]
    | some p =>
      by_cases hwc : wouldCycle st p idx
      · refine ⟨?_, ?_, [], ?_, ?_⟩ <;> simp [addDepEdges, hl, hwc]
      · simp only [addDepEdges, hl, if_neg hwc]
        obtain ⟨hn, hm, suffix, hs, hp⟩ := ih { st with edges := st.edges ++ [(p, idx)] }
        refine ⟨hn, hm, (p, idx) :: suffix, ?_, ?_⟩
        · rw [hs]
          simp
        · intro q hq
          rcases List.mem_cons.1 hq with rfl | hq'
          · exact ⟨rfl, d, List.mem_cons_self _ _, hl⟩
          · rcases hp q hq' with ⟨h2, d', hd', hld'⟩
            exact ⟨h2, d', List.mem_cons_of_mem _ hd', hld'⟩

theorem addDepEdges_unknown {mid : Uuid} {idx : Nat} :
    ∀ (ds : List Uuid) (st : Migrator) (d : Uuid) (st' : Migrator),
      addDepEdges mid idx st ds = (.error (.unknownId d), st') →
      d ∈ ds ∧ lookupId st.idMap d = none := by
  intro ds
  induction ds with
  | nil =>
    intro st d st' h
    simp [addDepEdges] at h
  | cons d0 ds ih =>
    intro st d st' h
    cases hl : lookupId st.idMap d0 with
    | none =>
      simp only [addDepEdges, hl, Prod.mk.injEq] at h
      rcases h with ⟨he, _⟩
      have : d0 = d := by
        injection he with he'
        injection he'
      subst this
      exact ⟨List.mem_cons_self _ _, hl⟩
    | some p =>
      by_cases hwc : wouldCycle st p idx
      · simp only [addDepEdges, hl, if_pos hwc, Prod.mk.injEq] at h
        rcases h with ⟨he, _⟩
        exact absurd he (by simp)
      · simp only [addDepEdges, hl, if_neg hwc] at h
        rcases ih _ d st' h with ⟨hd, hld⟩
        exact ⟨List.mem_cons_of_mem _ hd, hld⟩

theorem addDepEdges_no_cycle {mid : Uuid} {idx : Nat} :
    ∀ (ds : List Uuid) (st : Migrator),
      (∀ e ∈ st.edges, e.1 ≠ idx) →
      (∀ p ∈ st.idMap, p.2 ≠ idx) →
      (addDepEdges mid idx st ds).1 = .ok () ∨
        ∃ d, (addDepEdges mid idx st ds).1 = .error (.unknownId d) := by
  intro ds
  induction ds with
  | nil =>
    intro st _ _
    left
    rfl
  | cons d ds ih =>
    intro st hout hmap
    cases hl : lookupId st.idMap d with
    | none =>
      right
      exact ⟨d, by simp [addDepEdges, hl]⟩
    | some p =>
      have hpne : p ≠ idx := hmap _ (lookupId_mem hl)
      have hwc : wouldCycle st p idx = false := by
        rw [← Bool.not_eq_true]
        intro hcy
        have hrtg := @rtg_of_reachesB st idx p hcy
        rcases Relation.ReflTransGen.cases_head hrtg with heq | ⟨c, hc, _⟩
        · exact hpne heq.symm
        · exact hout _ hc rfl
      simp only [addDepEdges, hl, hwc, Bool.false_eq_true, if_false]
      apply ih
      · intro e he
        rcases List.mem_append.1 he with he' | he'
        · exact hout e he'
        · have : e = (p, idx) := List.mem_singleton.1 he'
          rw [this]
          exact hpne
      · exact hmap

theorem addDepEdges_self_unknown {mid : Uuid} {idx : Nat} :
    ∀ (ds : List Uuid) (st : Migrator),
      (∀ e ∈ st.edges, e.1 ≠ idx) →
      (∀ p ∈ st.idMap, p.2 ≠ idx) →
      lookupId st.idMap mid = none →
      mid ∈ ds →
      (∀ d ∈ ds, d = mid ∨ (lookupId st.idMap d).isSome) →
      (addDepEdges mid idx st ds).1 = .error (.unknownId mid) := by
  intro ds
  induction ds with
  | nil =>
    intro st _ _ _ hmem _
    simp at hmem
  | cons d ds ih =>
    intro st hout hmap hmid hmem hall
    by_cases hd : d = mid
    · subst hd
      simp [addDepEdges, hmid]
    · have hsome : (lookupId st.idMap d).isSome := by
        rcases hall d (List.mem_cons_self _ _) with h | h
        · exact absurd h hd
        · exact h
      obtain ⟨p, hl⟩ := Option.isSome_iff_exists.1 hsome
      have hpne : p ≠ idx := hmap _ (lookupId_mem hl)
      have hwc : wouldCycle st p idx = false := by
        rw [← Bool.not_eq_true]
        intro hcy
        have hrtg := @rtg_of_reachesB st idx p hcy
        rcases Relation.ReflTransGen.cases_head hrtg with heq | ⟨c, hc, _⟩
        · exact hpne heq.symm
        · exact hout _ hc rfl
      simp only [addDepEdges, hl, hwc, Bool.false_eq_true, if_false]
      apply ih
      · intro e he
        rcases List.mem_append.1 he with he' | he'
        · exact hout e he'
        · have : e = (p, idx) := List.mem_singleton.1 he'
          rw [this]
          exact hpne
      · exact hmap
      · exact hmid
      · rcases List.mem_cons.1 hmem with h | h
        · exact absurd h.symm hd
        · exact h
      · intro d' hd'
        exact hall d' (List.mem_cons_of_mem _ hd')

theorem addDepEdges_inv {mid : Uuid} {idx : Nat} :
    ∀ (ds : List Uuid) (st : Migrator),
      EdgesValid st → IdMapBounded st → idx < st.nodes.length → Acyclic st →
      EdgesValid (addDepEdges mid idx st ds).2 ∧
      IdMapBounded (addDepEdges mid idx st ds).2 ∧
      Acyclic (addDepEdges mid idx st ds).2 := by
  intro ds
  induction ds with
  | nil =>
    intro st hE hB _ hA
    exact ⟨hE, hB, hA⟩
  | cons d ds ih =>
    intro st hE hB hidx hA
    cases hl : lookupId st.idMap d with
    | none =>
      simp only [addDepEdges, hl]
      exact ⟨hE, hB, hA⟩
    | some p =>
      by_cases hwc : wouldCycle st p idx
      · simp only [addDepEdges, hl, if_pos hwc]
        exact ⟨hE, hB, hA⟩
      · simp only [addDepEdges, hl, if_neg hwc]
        have hplt : p < st.nodes.length := hB _ (lookupId_mem hl)
        have hE' : EdgesValid { st with edges := st.edges ++ [(p, idx)] } := by
          intro e he
          rcases List.mem_append.1 he with he' | he'
          · exact hE e he'
          · rw [List.mem_singleton.1 he']
            exact ⟨hplt, hidx⟩
        have hA' : Acyclic { st with edges := st.edges ++ [(p, idx)] } := by
          apply @acyclic_add_edge st _ _ _ rfl hA
          intro hrtg
          have := mem_reachSet_of_rtg hE hrtg
          unfold wouldCycle reachesB at hwc
          rw [decide_eq_true this] at hwc
          exact hwc rfl
        exact ih _ hE' hB hidx hA'

/-! Unfolding register by its branches. -/

theorem register_eq_dup {st : Migrator} {m : Migration}
    (hdup : (lookupId st.idMap m.id).isSome = true) :
    register st m = (.error (.duplicateId m.id), st) := by
  simp [register, hdup]

theorem register_eq_error {st : Migrator} {m : Migration} {e : DependencyError}
    {st2 : Migrator} (hdup : (lookupId st.idMap m.id).isSome = false)
    (haddr : addDepEdges m.id st.nodes.length { st with nodes := st.nodes ++ [m] }
      m.dependencies = (.error e, st2)) :
    register st m = (.error e, st2) := by
  simp [register, hdup, haddr]

theorem register_eq_ok {st : Migrator} {m : Migration} {u : Unit} {st2 : Migrator}
    (hdup : (lookupId st.idMap m.id).isSome = false)
    (haddr : addDepEdges m.id st.nodes.length { st with nodes := st.nodes ++ [m] }
      m.dependencies = (.ok u, st2)) :
    register st m = (.ok (), { st2 with idMap := st2.idMap ++ [(m.id, st.nodes.length)] }) := by
  simp [register, hdup, haddr]

/-! Structural invariants are preserved by every registration operation,
successful or failed. -/

theorem acyclic_of_edges_eq {st st' : Migrator} (h : st'.edges = st.edges)
    (hA : Acyclic st) : Acyclic st' := by
  intro i hi
  apply hA i
  apply Relation.TransGen.mono _ hi
  intro a b hab
  unfold Step at hab ⊢
  rwa [h] at hab

theorem register_inv {st : Migrator} (m : Migration)
    (hE : EdgesValid st) (hB : IdMapBounded st) (hA : Acyclic st) :
    EdgesValid (register st m).2 ∧ IdMapBounded (register st m).2 ∧
      Acyclic (register st m).2 := by
  cases hdup : (lookupId st.idMap m.id).isSome with
  | true =>
    rw [register_eq_dup hdup]
    exact ⟨hE, hB, hA⟩
  | false =>
    have hE1 : EdgesValid { st with nodes := st.nodes ++ [m] } := by
      intro e he
      have := hE e he
      simp only [List.length_append, List.length_singleton]
      omega
    have hB1 : IdMapBounded { st with nodes := st.nodes ++ [m] } := by
      intro p hp
      have := hB p hp
      simp only [List.length_append, List.length_singleton]
      omega
    have hA1 : Acyclic { st with nodes := st.nodes ++ [m] } :=
      acyclic_of_edges_eq rfl hA
    have hidx : st.nodes.length < ({ st with nodes := st.nodes ++ [m] } : Migrator).nodes.length := by
      simp
    obtain ⟨hE2, hB2, hA2⟩ :=
      @addDepEdges_inv m.id st.nodes.length m.dependencies _ hE1 hB1 hidx hA1
    cases haddr : addDepEdges m.id st.nodes.length { st with nodes := st.nodes ++ [m] }
        m.dependencies with
    | mk r st2 =>
      rw [haddr] at hE2 hB2 hA2
      cases r with
      | error e =>
        rw [register_eq_error hdup haddr]
        exact ⟨hE2, hB2, hA2⟩
      | ok u =>
        rw [register_eq_ok hdup haddr]
        have hnodes2 : st2.nodes = st.nodes ++ [m] := by
          have := (@addDepEdges_state m.id st.nodes.length
            m.dependencies { st with nodes := st.nodes ++ [m] }).1
          rw [haddr] at this
          exact this
        refine ⟨hE2, ?_, hA2⟩
        intro p hp
        rcases List.mem_append.1 hp with hp' | hp'
        · exact hB2 p hp'
        · rw [List.mem_singleton.1 hp']
          simp only [hnodes2, List.length_append, List.length_singleton]
          omega

theorem addNodes_inv :
    ∀ (ms : List Migration) (st : Migrator),
      (∃ l, (addNodes st ms).2.nodes = st.nodes ++ l) ∧
      (∃ l, (addNodes st ms).2.idMap = st.idMap ++ l) ∧
      (addNodes st ms).2.edges = st.edges ∧
      (IdMapBounded st → IdMapBounded (addNodes st ms).2) := by
  intro ms
  induction ms with
  | nil =>
    intro st
    exact ⟨⟨[], by simp [addNodes]⟩, ⟨[], by simp [addNodes]⟩, rfl, fun h => h⟩
  | cons m ms ih =>
    intro st
    cases hdup : (lookupId st.idMap m.id).isSome with
    | true =>
      refine ⟨⟨[], ?_⟩, ⟨[], ?_⟩, ?_, ?_⟩ <;> simp [addNodes, hdup]
    | false =>
      have heq : addNodes st (m :: ms) =
          addNodes
            { st with nodes := st.nodes ++ [m], idMap := st.idMap ++ [(m.id, st.nodes.length)] }
            ms := by
        simp [addNodes, hdup]
      obtain ⟨⟨l1, h1⟩, ⟨l2, h2⟩, h3, h4⟩ :=
        ih { st with nodes := st.nodes ++ [m], idMap := st.idMap ++ [(m.id, st.nodes.length)] }
      rw [heq]
      refine ⟨⟨[m] ++ l1, by rw [h1, List.append_assoc]⟩,
        ⟨[(m.id, st.nodes.length)] ++ l2, by rw [h2, List.append_assoc]⟩, h3, ?_⟩
      intro hB
      apply h4
      intro p hp
      rcases List.mem_append.1 hp with hp' | hp'
      · have := hB p hp'
        simp only [List.length_append, List.length_singleton]
        omega
      · rw [List.mem_singleton.1 hp']
        simp

theorem linkAll_state :
    ∀ (pairs : List (Uuid × Nat)) (st : Migrator),
      (linkAll pairs st).2.nodes = st.nodes ∧ (linkAll pairs st).2.idMap = st.idMap := by
  intro pairs
  induction pairs with
  | nil =>
    intro st
    exact ⟨rfl, rfl⟩
  | cons p rest ih =>
    intro st
    obtain ⟨u, idx⟩ := p
    obtain ⟨hn, hm, _⟩ := @addDepEdges_state u idx
      (st.nodes.getD idx default).dependencies st
    cases haddr : addDepEdges u idx st (st.nodes.getD idx default).dependencies with
    | mk r st2 =>
      rw [haddr] at hn hm
      cases r with
      | error e =>
        have : linkAll ((u, idx) :: rest) st = (.error e, st2) := by
          rw [linkAll, haddr]
        rw [this]
        exact ⟨hn, hm⟩
      | ok u' =>
        have : linkAll ((u, idx) :: rest) st = linkAll rest st2 := by
          rw [linkAll, haddr]
        rw [this]
        obtain ⟨hn', hm'⟩ := ih st2
        exact ⟨hn'.trans hn, hm'.trans hm⟩

theorem linkAll_inv :
    ∀ (pairs : List (Uuid × Nat)) (st : Migrator),
      EdgesValid st → IdMapBounded st → Acyclic st →
      (∀ p ∈ pairs, p.2 < st.nodes.length) →
      EdgesValid (linkAll pairs st).2 ∧ IdMapBounded (linkAll pairs st).2 ∧
        Acyclic (linkAll pairs st).2 := by
  intro pairs
  induction pairs with
  | nil =>
    intro st hE hB hA _
    exact ⟨hE, hB, hA⟩
  | cons p rest ih =>
    intro st hE hB hA hbound
    obtain ⟨u, idx⟩ := p
    obtain ⟨hE2, hB2, hA2⟩ := @addDepEdges_inv u idx
      (st.nodes.getD idx default).dependencies st hE hB
      (hbound (u, idx) (List.mem_cons_self _ _)) hA
    obtain ⟨hn, hm, _⟩ := @addDepEdges_state u idx
      (st.nodes.getD idx default).dependencies st
    cases haddr : addDepEdges u idx st (st.nodes.getD idx default).dependencies with
    | mk r st2 =>
      rw [haddr] at hE2 hB2 hA2 hn hm
      cases r with
      | error e =>
        have : linkAll ((u, idx) :: rest) st = (.error e, st2) := by
          rw [linkAll, haddr]
        rw [this]
        exact ⟨hE2, hB2, hA2⟩
      | ok u' =>
        have : linkAll ((u, idx) :: rest) st = linkAll rest st2 := by
          rw [linkAll, haddr]
        rw [this]
        apply ih st2 hE2 hB2 hA2
        intro q hq
        rw [hn]
        exact hbound q (List.mem_cons_of_mem _ hq)

theorem registerMultiple_inv {st : Migrator} (ms : List Migration)
    (hE : EdgesValid st) (hB : IdMapBounded st) (hA : Acyclic st) :
    EdgesValid (registerMultiple st ms).2 ∧ IdMapBounded (registerMultiple st ms).2 ∧
      Acyclic (registerMultiple st ms).2 := by
  obtain ⟨⟨l1, h1⟩, ⟨l2, h2⟩, h3, h4⟩ := addNodes_inv ms st
  have hE' : EdgesValid (addNodes st ms).2 := by
    intro e he
    rw [h3] at he
    have := hE e he
    rw [h1, List.length_append]
    omega
  have hB' : IdMapBounded (addNodes st ms).2 := h4 hB
  have hA' : Acyclic (addNodes st ms).2 := acyclic_of_edges_eq h3 hA
  cases haddn : addNodes st ms with
  | mk r st2 =>
    rw [haddn] at hE' hB' hA'
    cases r with
    | error e =>
      have : registerMultiple st ms = (.error e, st2) := by
        simp [registerMultiple, haddn]
      rw [this]
      exact ⟨hE', hB', hA'⟩
    | ok u =>
      have : registerMultiple st ms = linkAll st2.idMap st2 := by
        simp [registerMultiple, haddn]
      rw [this]
      exact linkAll_inv st2.idMap st2 hE' hB' hA' (fun p hp => hB' p hp)

/-! The id map only ever grows, and structural invariants hold in every
reachable state. -/

theorem register_idMap_prefix (st : Migrator) (m : Migration) :
    ∃ l, (register st m).2.idMap = st.idMap ++ l := by
  cases hdup : (lookupId st.idMap m.id).isSome with
  | true =>
    rw [register_eq_dup hdup]
    exact ⟨[], by simp⟩
  | false =>
    obtain ⟨hn, hm, _⟩ := @addDepEdges_state m.id st.nodes.length
      m.dependencies { st with nodes := st.nodes ++ [m] }
    cases haddr : addDepEdges m.id st.nodes.length { st with nodes := st.nodes ++ [m] }
        m.dependencies with
    | mk r st2 =>
      rw [haddr] at hn hm
      simp only [] at hn hm
      cases r with
      | error e =>
        rw [register_eq_error hdup haddr]
        exact ⟨[], by simp [hm]⟩
      | ok u =>
        rw [register_eq_ok hdup haddr]
        exact ⟨[(m.id, st.nodes.length)], by simp [hm]⟩

theorem registerMultiple_idMap_prefix (st : Migrator) (ms : List Migration) :
    ∃ l, (registerMultiple st ms).2.idMap = st.idMap ++ l := by
  obtain ⟨_, ⟨l2, h2⟩, _, _⟩ := addNodes_inv ms st
  cases haddn : addNodes st ms with
  | mk r st2 =>
    rw [haddn] at h2
    cases r with
    | error e =>
      have : registerMultiple st ms = (.error e, st2) := by
        simp [registerMultiple, haddn]
      rw [this]
      exact ⟨l2, h2⟩
    | ok u =>
      have : registerMultiple st ms = linkAll st2.idMap st2 := by
        simp [registerMultiple, haddn]
      rw [this]
      exact ⟨l2, ((linkAll_state st2.idMap st2).2).trans h2⟩

theorem regReach_idMap_prefix {st st' : Migrator} (h : RegReach st st') :
    ∃ l, st'.idMap = st.idMap ++ l := by
  induction h with
  | refl => exact ⟨[], by simp⟩
  | reg st1 m hprev ih =>
    obtain ⟨l1, h1⟩ := ih
    obtain ⟨l2, h2⟩ := register_idMap_prefix st1 m
    exact ⟨l1 ++ l2, by rw [h2, h1, List.append_assoc]⟩
  | regMult st1 ms hprev ih =>
    obtain ⟨l1, h1⟩ := ih
    obtain ⟨l2, h2⟩ := registerMultiple_idMap_prefix st1 ms
    exact ⟨l1 ++ l2, by rw [h2, h1, List.append_assoc]⟩

theorem regReach_inv {st st' : Migrator} (h : RegReach st st')
    (hE : EdgesValid st) (hB : IdMapBounded st) (hA : Acyclic st) :
    EdgesValid st' ∧ IdMapBounded st' ∧ Acyclic st' := by
  induction h with
  | refl => exact ⟨hE, hB, hA⟩
  | reg st1 m hprev ih =>
    obtain ⟨hE1, hB1, hA1⟩ := ih
    exact register_inv m hE1 hB1 hA1
  | regMult st1 ms hprev ih =>
    obtain ⟨hE1, hB1, hA1⟩ := ih
    exact registerMultiple_inv ms hE1 hB1 hA1

/-- Shape of the state after register fails with UnknownId: the node was
added and stays, the id map is untouched (the id is not recorded), and
every edge left behind points into the new node, never out of it. -/
theorem register_unknown_shape {st : Migrator} {m : Migration} {d : Uuid} {st' : Migrator}
    (hE : EdgesValid st) (hB : IdMapBounded st)
    (hreg : register st m = (.error (.unknownId d), st')) :
    d ∈ m.dependencies ∧ lookupId st.idMap d = none ∧
    lookupId st.idMap m.id = none ∧
    st'.nodes = st.nodes ++ [m] ∧ st'.idMap = st.idMap ∧
    (∀ e ∈ st'.edges, e ∈ st.edges ∨ e.2 = st.nodes.length) ∧
    (∀ e ∈ st'.edges, e.1 ≠ st.nodes.length) := by
  cases hdup : (lookupId st.idMap m.id).isSome with
  | true =>
    rw [register_eq_dup hdup] at hreg
    simp at hreg
  | false =>
    have hmid : lookupId st.idMap m.id = none := by
      cases hlm : lookupId st.idMap m.id with
      | none => rfl
      | some i => rw [hlm] at hdup; simp at hdup
    cases haddr : addDepEdges m.id st.nodes.length { st with nodes := st.nodes ++ [m] }
        m.dependencies with
    | mk r st2 =>
      cases r with
      | ok u =>
        rw [register_eq_ok hdup haddr] at hreg
        simp at hreg
      | error e0 =>
        rw [register_eq_error hdup haddr] at hreg
        have he0 : e0 = .unknownId d ∧ st2 = st' := by
          rw [Prod.mk.injEq] at hreg
          exact ⟨by injection hreg.1, hreg.2⟩
        rcases he0 with ⟨rfl, rfl⟩
        obtain ⟨hd, hld⟩ := addDepEdges_unknown m.dependencies _ d _ haddr
        obtain ⟨hn, hm, suffix, hs, hsp⟩ := @addDepEdges_state m.id
          st.nodes.length m.dependencies { st with nodes := st.nodes ++ [m] }
        rw [haddr] at hn hm hs
        simp only [] at hn hm hs hld hsp
        refine ⟨hd, hld, hmid, hn, hm, ?_, ?_⟩
        · intro e he
          rw [hs] at he
          rcases List.mem_append.1 he with he' | he'
          · exact Or.inl he'
          · exact Or.inr (hsp e he').1
        · intro e he
          rw [hs] at he
          rcases List.mem_append.1 he with he' | he'
          · exact Nat.ne_of_lt (hE e he').1
          · rcases (hsp e he').2 with ⟨d', _, hld'⟩
            exact Nat.ne_of_lt (hB _ (lookupId_mem hld'))

/-- C4: during up, if the adapter apply action fails with error e for a
migration mf in the acted-on walk, all earlier acted-on applies
succeeding, then up returns the Migration error carrying mf's id,
description, direction Up and e; every in-target unapplied migration
before mf in the walk has been applied; and the invoked-action trace stops
at mf, so nothing after it was attempted.  The same holds for down with
direction Down and revert actions. -/
theorem c4_stop_on_first_failure {E : Type} :
    (∀ (st : Migrator) (ad : MemAdapter E) (to? : Option Uuid) (T : Finset Uuid)
        (ts : List Nat) (pre : List Migration) (mf : Migration) (post : List Migration)
        (e : E),
        inducedStream st to? .incoming = some (.ok T) →
        toposort st = some ts →
        upPlan st T ad.applied ts = pre ++ mf :: post →
        (∀ m ∈ pre, ad.applyFail m.id = none) →
        ad.applyFail mf.id = some e →
        up st ad to? = some (.error (.migration mf.id mf.description .up e),
          { ad with applied := ad.applied ∪ (pre.map Migration.id).toFinset },
          pre.map Migration.id ++ [mf.id])) ∧
    (∀ (st : Migrator) (ad : MemAdapter E) (to? : Option Uuid) (T0 : Finset Uuid)
        (ts : List Nat) (pre : List Migration) (mf : Migration) (post : List Migration)
        (e : E),
        inducedStream st to? .outgoing = some (.ok T0) →
        toposort st = some ts →
        downPlan st (dTargets to? T0) ad.applied ts.reverse = pre ++ mf :: post →
        (∀ m ∈ pre, ad.revertFail m.id = none) →
        ad.revertFail mf.id = some e →
        down st ad to? = some (.error (.migration mf.id mf.description .down e),
          { ad with applied := ad.applied \ (pre.map Migration.id).toFinset },
          pre.map Migration.id ++ [mf.id])) := by
  constructor
  · intro st ad to? T ts pre mf post e hind hts hplan hpre hfail
    simp only [up, hind, hts]
    rw [upWalk_fail ts ad pre mf post e hplan hpre hfail]
  · intro st ad to? T0 ts pre mf post e hind hts hplan hpre hfail
    simp only [down, hind, hts]
    rw [downWalk_fail ts.reverse ad pre mf post e hplan hpre hfail]

/-- C6 counterexample: register_multiple on a two-cycle fails with Cycle
but does not leave the state as it was (nodes, edges and id map entries
remain), and the section-8 scenario (C reusing A's id with a dependency on
B) fails with DuplicateId, not Cycle. -/
theorem c6_counterexample :
    (registerMultiple Migrator.empty [⟨1, [2], "a"⟩, ⟨2, [1], "b"⟩]).1 =
        .error (.cycle 1 2) ∧
    (registerMultiple Migrator.empty [⟨1, [2], "a"⟩, ⟨2, [1], "b"⟩]).2 ≠ Migrator.empty ∧
    (register (register (register Migrator.empty ⟨1, [], "a"⟩).2 ⟨2, [1], "b"⟩).2
        ⟨1, [2], "c"⟩).1 = .error (.duplicateId 1) := by
  decide

/-- C6 amended: a dependency edge that would close a cycle is rejected
without being inserted, so the dependency graph stays acyclic after every
register or register_multiple call, successful or failed; but a failed
call is not rolled back (see the counterexample), and the section-8
duplicate-id scenario fails with DuplicateId before any edge is
attempted. -/
theorem c6_cycle_rejection_keeps_acyclic (st : Migrator) (hE : EdgesValid st)
    (hB : IdMapBounded st) (hA : Acyclic st) :
    (∀ m, Acyclic (register st m).2) ∧ ∀ ms, Acyclic (registerMultiple st ms).2 :=
  ⟨fun m => (register_inv m hE hB hA).2.2,
    fun ms => (registerMultiple_inv ms hE hB hA).2.2⟩

/-- C7 counterexample: a register call whose descriptor has one known and
one unknown dependency returns UnknownId but leaves the edge for the
known dependency in the graph, refuting that no dependency edges from the
failed call remain. -/
theorem c7_counterexample :
    (register (register Migrator.empty ⟨1, [], "a"⟩).2 ⟨2, [1, 99], "b"⟩).1 =
        .error (.unknownId 99) ∧
    (register (register Migrator.empty ⟨1, [], "a"⟩).2 ⟨2, [1, 99], "b"⟩).2.edges =
        [(0, 1)] := by
  decide

/-- C7 amended: on an unknown dependency, register returns UnknownId of
the first unknown id in iteration order; edges added earlier in the same
call remain, but they all point into the new node — the new node has no
outgoing edges, so no edges from it are left dangling — and the id map is
unchanged. -/
theorem c7_unknown_dep_no_outgoing_edges (st : Migrator) (m : Migration) (d : Uuid)
    (st' : Migrator) (hE : EdgesValid st) (hB : IdMapBounded st)
    (hreg : register st m = (.error (.unknownId d), st')) :
    d ∈ m.dependencies ∧ lookupId st.idMap d = none ∧
    st'.nodes = st.nodes ++ [m] ∧ st'.idMap = st.idMap ∧
    (∀ e ∈ st'.edges, e ∈ st.edges ∨ e.2 = st.nodes.length) ∧
    (∀ e ∈ st'.edges, e.1 ≠ st.nodes.length) := by
  obtain ⟨h1, h2, _, h4, h5, h6, h7⟩ := register_unknown_shape hE hB hreg
  exact ⟨h1, h2, h4, h5, h6, h7⟩

/-- C8 counterexample: a register call that fails with UnknownId does not
record the id, so re-registering the same id afterwards is accepted with
Ok rather than rejected with DuplicateId. -/
theorem c8_counterexample :
    (register Migrator.empty ⟨1, [99], "a"⟩).1 = .error (.unknownId 99) ∧
    (register (register Migrator.empty ⟨1, [99], "a"⟩).2 ⟨1, [], "b"⟩).1 = .ok () := by
  decide

/-- C8 amended: after a register call that returned Ok for id I, every
subsequent register of a descriptor with id I — after any further
register or register_multiple calls, successful or failed — is rejected
with DuplicateId(I) and leaves the state unchanged; a failed register does
not record its id, so re-registration after failure is not rejected (see
the counterexample). -/
theorem c8_duplicate_only_after_success (st : Migrator) (m : Migration)
    (st1 : Migrator) (hok : register st m = (.ok (), st1)) (st2 : Migrator)
    (hreach : RegReach st1 st2) (m' : Migration) (hid : m'.id = m.id) :
    register st2 m' = (.error (.duplicateId m'.id), st2) := by
  have hkey : ∃ p ∈ st1.idMap, p.1 = m.id := by
    cases hdup : (lookupId st.idMap m.id).isSome with
    | true =>
      rw [register_eq_dup hdup] at hok
      simp at hok
    | false =>
      cases haddr : addDepEdges m.id st.nodes.length { st with nodes := st.nodes ++ [m] }
          m.dependencies with
      | mk r st2' =>
        cases r with
        | error e =>
          rw [register_eq_error hdup haddr] at hok
          simp at hok
        | ok u =>
          rw [register_eq_ok hdup haddr] at hok
          rw [Prod.mk.injEq] at hok
          have hmap : st1.idMap = st2'.idMap ++ [(m.id, st.nodes.length)] := by
            rw [← hok.2]
          exact ⟨(m.id, st.nodes.length), by rw [hmap]; simp, rfl⟩
  obtain ⟨l, hl⟩ := regReach_idMap_prefix hreach
  have hkey2 : ∃ p ∈ st2.idMap, p.1 = m'.id := by
    rcases hkey with ⟨p, hp, hp1⟩
    refine ⟨p, ?_, ?_⟩
    · rw [hl]
      exact List.mem_append_left _ hp
    · rw [hid, hp1]
  exact register_eq_dup (lookupId_isSome_iff.2 hkey2)

/-- C9: after a register call fails with UnknownId, the new node is left
in the graph with no id map entry; it has no outgoing edges, so up(None)
collects it as a sink, and the id map lookup for its id panics at the
expect (ID map is malformed) — modeled as up returning none — rather than
returning an error. -/
theorem c9_up_after_failed_register_panics {E : Type} (st : Migrator) (m : Migration)
    (d : Uuid) (st' : Migrator) (ad : MemAdapter E)
    (hE : EdgesValid st) (hB : IdMapBounded st)
    (hreg : register st m = (.error (.unknownId d), st')) :
    up st' ad none = none := by
  obtain ⟨_, _, hmid, hn, hm, _, hnoout⟩ := register_unknown_shape hE hB hreg
  have hlt : st.nodes.length < st'.nodes.length := by
    rw [hn, List.length_append, List.length_singleton]
    omega
  have hnonbrs : nbrs st' .outgoing st.nodes.length = [] := by
    unfold nbrs
    have : st'.edges.filter (fun e => decide (e.1 = st.nodes.length)) = [] := by
      rw [List.filter_eq_nil_iff]
      intro e he
      simp only [decide_eq_true_eq]
      exact hnoout e he
    rw [this]
    rfl
  have hext : st.nodes.length ∈ externals st' .outgoing := by
    unfold externals
    rw [List.mem_filter]
    refine ⟨List.mem_range.2 hlt, ?_⟩
    rw [hnonbrs]
    rfl
  have hidm : (st'.nodes.getD st.nodes.length default).id = m.id := by
    rw [hn]
    have : (st.nodes ++ [m])[st.nodes.length]? = some m := List.getElem?_concat_length _ _
    rw [List.getD_eq_getElem?_getD, this]
    rfl
  have hts : targetStart st' none Dir.incoming =
      .ok ((externals st' Dir.incoming.opposite).map
        (fun i => (st'.nodes.getD i default).id)).toFinset := rfl
  have hmemtg : m.id ∈ ((externals st' Dir.incoming.opposite).map
      (fun i => (st'.nodes.getD i default).id)).toFinset := by
    rw [List.mem_toFinset, List.mem_map]
    exact ⟨st.nodes.length, hext, hidm⟩
  have hla : lookupAll st' (sortedIds ((externals st' Dir.incoming.opposite).map
      (fun i => (st'.nodes.getD i default).id)).toFinset) = none := by
    apply lookupAll_none
    refine ⟨m.id, ?_, ?_⟩
    · rw [mem_sortedIds]
      exact hmemtg
    · rw [hm]
      exact hmid
  simp only [up, inducedStream, hts, hla]

/-- C10: in every migrator state reachable by register/register_multiple
calls from the empty state (failures included), a single-descriptor
register never returns Cycle: its result is Ok, DuplicateId of the
descriptor's id, or UnknownId of some dependency — because the freshly
inserted node has no outgoing edges while its dependency edges are added.
In particular, a fresh descriptor listing its own id among its
dependencies, all of whose other dependencies are known, is rejected with
UnknownId of its own id, not Cycle. -/
theorem c10_register_never_returns_cycle (st : Migrator)
    (hreach : RegReach Migrator.empty st) (m : Migration) :
    ((register st m).1 = .ok () ∨ (register st m).1 = .error (.duplicateId m.id) ∨
      ∃ d, (register st m).1 = .error (.unknownId d)) ∧
    (m.id ∈ m.dependencies →
      (lookupId st.idMap m.id).isSome = false →
      (∀ d ∈ m.dependencies, d = m.id ∨ (lookupId st.idMap d).isSome) →
      (register st m).1 = .error (.unknownId m.id)) := by
  have hempty : EdgesValid Migrator.empty ∧ IdMapBounded Migrator.empty ∧
      Acyclic Migrator.empty := by
    refine ⟨?_, ?_, ?_⟩
    · intro e he
      simp [Migrator.empty] at he
    · intro p hp
      simp [Migrator.empty] at hp
    · intro i hi
      rcases Relation.TransGen.head'_iff.1 hi with ⟨c, hc, _⟩
      simp [Step, Migrator.empty] at hc
  obtain ⟨hE, hB, hA⟩ := regReach_inv hreach hempty.1 hempty.2.1 hempty.2.2
  have hout : ∀ e ∈ ({ st with nodes := st.nodes ++ [m] } : Migrator).edges,
      e.1 ≠ st.nodes.length := by
    intro e he
    exact Nat.ne_of_lt (hE e he).1
  have hmap : ∀ p ∈ ({ st with nodes := st.nodes ++ [m] } : Migrator).idMap,
      p.2 ≠ st.nodes.length := by
    intro p hp
    exact Nat.ne_of_lt (hB p hp)
  constructor
  · cases hdup : (lookupId st.idMap m.id).isSome with
    | true =>
      right
      left
      rw [register_eq_dup hdup]
    | false =>
      have hnc := @addDepEdges_no_cycle m.id st.nodes.length
        m.dependencies { st with nodes := st.nodes ++ [m] } hout hmap
      cases haddr : addDepEdges m.id st.nodes.length { st with nodes := st.nodes ++ [m] }
          m.dependencies with
      | mk r st2 =>
        rw [haddr] at hnc
        cases r with
        | ok u =>
          left
          rw [register_eq_ok hdup haddr]
        | error e0 =>
          rcases hnc with h | ⟨d, h⟩
          · simp at h
          · right
            right
            refine ⟨d, ?_⟩
            have he0 : e0 = .unknownId d := by simpa using h
            rw [register_eq_error hdup haddr, he0]
  · intro hself hdup hall
    have hmid : lookupId ({ st with nodes := st.nodes ++ [m] } : Migrator).idMap m.id
        = none := by
      cases hlm : lookupId st.idMap m.id with
      | none => rfl
      | some i => rw [hlm] at hdup; simp at hdup
    have hsu := @addDepEdges_self_unknown m.id st.nodes.length
      m.dependencies { st with nodes := st.nodes ++ [m] } hout hmap hmid hself hall
    cases haddr : addDepEdges m.id st.nodes.length { st with nodes := st.nodes ++ [m] }
        m.dependencies with
    | mk r st2 =>
      rw [haddr] at hsu
      have hr : r = .error (.unknownId m.id) := by simpa using hsu
      subst hr
      rw [register_eq_error hdup haddr]

/-! Concrete instantiations. -/

theorem exChain_wf : WF exChain :=
  ⟨by decide, by decide, by decide, acyclic_of_acyclicB (by decide) (by decide)⟩

/-- C1 witness: the two-migration chain after up(None) from the empty set. -/
theorem c1_topological_safety_witness :
    WF exChain ∧ runOps exChain ∅ [Op.up none] = some {2, 1} ∧
    ∀ e ∈ exChain.edges, idOf exChain e.2 ∈ ({2, 1} : Finset Uuid) →
      idOf exChain e.1 ∈ ({2, 1} : Finset Uuid) :=
  ⟨exChain_wf, by decide,
    c1_topological_safety exChain exChain_wf [Op.up none] {2, 1} (by decide)⟩

/-- C2 witness: up(Some 2) on the chain from the empty set. -/
theorem c2_ancestor_closure_witness :
    WF exChain ∧ lookupId exChain.idMap 2 = some 1 ∧
    ∃ ad tr, up exChain (alwaysOk ∅) (some 2) = some (.ok (), ad, tr) ∧
      (ad.applied : Set Uuid) = ancestorIds exChain 1 :=
  ⟨exChain_wf, by decide, c2_ancestor_closure exChain exChain_wf 2 1 (by decide)⟩

/-- C3 witness: down(Some 1) on the chain with both migrations applied. -/
theorem c3_descendant_closure_witness :
    WF exChain ∧ lookupId exChain.idMap 1 = some 0 ∧ (1 : Uuid) ∈ ({1, 2} : Finset Uuid) ∧
    ∃ ad tr, down exChain (alwaysOk {1, 2}) (some 1) = some (.ok (), ad, tr) ∧
      (1 : Uuid) ∈ ad.applied ∧
      (∀ w ∈ descendantIds exChain 0, w ≠ 1 → w ∉ ad.applied) ∧
      ∀ w ∈ tr, w ∈ ({1, 2} : Finset Uuid) :=
  ⟨exChain_wf, by decide, by decide,
    c3_descendant_closure exChain exChain_wf 1 0 {1, 2} (by decide) (by decide)⟩

/-- C4 witness: on the chain, an apply action failing on id 2 stops the
up walk with a Migration error after applying id 1, and a revert action
failing on id 1 stops the down walk after reverting id 2. -/
theorem c4_stop_on_first_failure_witness :
    up exChain exFailUpAd none = some (.error (.migration exM2.id exM2.description .up ()),
      { exFailUpAd with applied := exFailUpAd.applied ∪ ([exM1].map Migration.id).toFinset },
      [exM1].map Migration.id ++ [exM2.id]) ∧
    down exChain exFailDownAd none = some (.error (.migration exM1.id exM1.description .down ()),
      { exFailDownAd with applied := exFailDownAd.applied \ ([exM2].map Migration.id).toFinset },
      [exM2].map Migration.id ++ [exM1.id]) := by
  constructor
  · exact c4_stop_on_first_failure.1 exChain exFailUpAd none {1, 2} [0, 1] [exM1] exM2 [] ()
      (by decide) (by decide) (by decide) (by decide) (by decide)
  · exact c4_stop_on_first_failure.2 exChain exFailDownAd none {2, 1} [0, 1] [exM2] exM1 [] ()
      (by decide) (by decide) (by decide) (by decide) (by decide)

/-- C5 witness: up(None) twice on the chain from the empty set. -/
theorem c5_idempotent_noop_witness :
    WF exChain ∧ ∃ ad1 tr1, up exChain (alwaysOk ∅) none = some (.ok (), ad1, tr1) ∧
      up exChain (alwaysOk ad1.applied) none = some (.ok (), alwaysOk ad1.applied, []) :=
  ⟨exChain_wf, c5_idempotent_noop exChain exChain_wf ∅⟩

/-- C6 witness: the chain state is acyclic and stays so under any further
registration call. -/
theorem c6_cycle_rejection_witness :
    Acyclic exChain ∧
    ((∀ m, Acyclic (register exChain m).2) ∧
      ∀ ms, Acyclic (registerMultiple exChain ms).2) := by
  have hA : Acyclic exChain := acyclic_of_acyclicB (by decide) (by decide)
  exact ⟨hA, c6_cycle_rejection_keeps_acyclic exChain (by decide) (by decide) hA⟩

/-- C7 witness: registering a descriptor with a known and an unknown
dependency on the one-node state. -/
theorem c7_unknown_dep_witness :
    register exOne exBadM = (.error (.unknownId 99), exOneBad) ∧
    (99 ∈ exBadM.dependencies ∧ lookupId exOne.idMap 99 = none ∧
      exOneBad.nodes = exOne.nodes ++ [exBadM] ∧ exOneBad.idMap = exOne.idMap ∧
      (∀ e ∈ exOneBad.edges, e ∈ exOne.edges ∨ e.2 = exOne.nodes.length) ∧
      ∀ e ∈ exOneBad.edges, e.1 ≠ exOne.nodes.length) :=
  ⟨by decide, c7_unknown_dep_no_outgoing_edges exOne exBadM 99 exOneBad (by decide) (by decide)
    (by decide)⟩

/-- C8 witness: after successfully registering id 1, re-registering id 1
is rejected with DuplicateId. -/
theorem c8_duplicate_witness :
    register Migrator.empty exM1 = (.ok (), exOne) ∧
    register exOne ⟨1, [5], "x"⟩ = (.error (.duplicateId 1), exOne) :=
  ⟨by decide, c8_duplicate_only_after_success Migrator.empty exM1 exOne (by decide) exOne
    (RegReach.refl exOne) ⟨1, [5], "x"⟩ rfl⟩

/-- C9 witness: after a register call fails with UnknownId, up(None) hits
the malformed id map and panics (returns no value). -/
theorem c9_panic_witness :
    register Migrator.empty exOrphanM = (.error (.unknownId 99), exOrphan) ∧
    up exOrphan (alwaysOk ∅) none = none :=
  ⟨by decide, c9_up_after_failed_register_panics Migrator.empty exOrphanM 99 exOrphan
    (alwaysOk ∅) (by decide) (by decide) (by decide)⟩

/-- C10 witness: on the reachable one-node state, a self-dependent
descriptor is rejected with UnknownId of its own id, never Cycle. -/
theorem c10_no_cycle_witness :
    RegReach Migrator.empty exOne ∧
    (((register exOne exSelf).1 = .ok () ∨
        (register exOne exSelf).1 = .error (.duplicateId exSelf.id) ∨
        ∃ d, (register exOne exSelf).1 = .error (.unknownId d)) ∧
      (exSelf.id ∈ exSelf.dependencies →
        (lookupId exOne.idMap exSelf.id).isSome = false →
        (∀ d ∈ exSelf.dependencies, d = exSelf.id ∨ (lookupId exOne.idMap d).isSome) →
        (register exOne exSelf).1 = .error (.unknownId exSelf.id))) := by
  have hreach : RegReach Migrator.empty exOne := by
    have h := RegReach.reg Migrator.empty Migrator.empty exM1 (RegReach.refl Migrator.empty)
    have heq : (register Migrator.empty exM1).2 = exOne := by decide
    rwa [heq] at h
  exact ⟨hreach, c10_register_never_returns_cycle exOne hreach exSelf⟩

end Schemer
